import Mathlib

/-!
Verification development for the employee time-report reconciliation core
(`data_validator.py`, `google_sheets_updater.py`, `report_parser.py`,
`export_to_excel.py`).  The Python functions are embedded as executable
Lean definitions over `String`, `ℚ` and association lists; numeric values
are modelled as exact rationals.
-/

namespace TimeAnalyzer

/-! ## Python string primitives -/

/-- Characters treated as whitespace by Python's `str.strip` / `\s`. -/
def pyIsSpace (c : Char) : Bool :=
  c = ' ' || c = '\t' || c = '\n' || c = '\r' || c = '\x0b' || c = '\x0c'

/-- Python `str.strip()`: drop whitespace from both ends. -/
def pyStrip (s : String) : String :=
  ⟨((s.data.dropWhile pyIsSpace).reverse.dropWhile pyIsSpace).reverse⟩

/-- Python `str.lower()` (ASCII range; identity elsewhere, as for Hebrew). -/
def pyLower (s : String) : String :=
  ⟨s.data.map Char.toLower⟩

/-- Python `s[::-1]`: full character reversal. -/
def revStr (s : String) : String :=
  ⟨s.data.reverse⟩

/-- `any('֐' <= c <= '׿' for c in name)`: Hebrew-block detection. -/
def containsHebrew (s : String) : Bool :=
  s.data.any fun c => '֐' ≤ c && c ≤ '׿'

/-- The characters removed by `re.sub(r'[-"\']', ' ', name)`. -/
def isNamePunct (c : Char) : Bool :=
  c = '-' || c = '"' || c = '\''

/-- `re.sub(r'[-"\']', ' ', s)`. -/
def replacePunct (s : String) : String :=
  ⟨s.data.map fun c => if isNamePunct c then ' ' else c⟩

/-- Helper for `collapseWsList`: the flag records whether the previous
character was whitespace (so the current run was already emitted). -/
def collapseGo : Bool → List Char → List Char
  | _, [] => []
  | prevSpace, c :: cs =>
    if pyIsSpace c then
      if prevSpace then collapseGo true cs else ' ' :: collapseGo true cs
    else
      c :: collapseGo false cs

/-- `re.sub(r'\s+', ' ', s)`: collapse each whitespace run to one space
(no trimming of the ends). -/
def collapseWsList (l : List Char) : List Char :=
  collapseGo false l

/-- See `collapseWsList`. -/
def collapseWs (s : String) : String :=
  ⟨collapseWsList s.data⟩

/-- `data_validator.normalize_name`: empty for falsy input, then strip,
replace `-`/`"`/`'` by spaces, collapse whitespace runs, strip again. -/
def normalizeName (s : String) : String :=
  if s = "" then ""
  else pyStrip (collapseWs (replacePunct (pyStrip s)))

/-! ## difflib.SequenceMatcher ratio

`SequenceMatcher(None, a, b).ratio()` with no junk (the inputs here are
short names, far below the autojunk threshold): repeatedly find the
longest matching block — ties resolved towards the smallest start in `a`,
then the smallest start in `b` — recurse on both sides, and return
`2 * totalMatched / (len a + len b)` (`1` when both strings are empty). -/

/-- Length of the longest common prefix of two character lists. -/
def commonPrefixLen : List Char → List Char → Nat
  | a :: as, b :: bs => if a = b then commonPrefixLen as bs + 1 else 0
  | _, _ => 0

/-- Scan the suffixes of `b` (start index `j` ascending) against the fixed
suffix `sa` of `a` starting at `i`, keeping the first strictly longer
match, as `find_longest_match` does. -/
def bestOverB (sa : List Char) (i : Nat) : List Char → Nat → Nat × Nat × Nat → Nat × Nat × Nat
  | [], _, best => best
  | b :: bs, j, best =>
    let k := commonPrefixLen sa (b :: bs)
    bestOverB sa i bs (j + 1) (if k > best.2.2 then (i, j, k) else best)

/-- Scan the suffixes of `a` (start index `i` ascending). -/
def bestOverA (b : List Char) : List Char → Nat → Nat × Nat × Nat → Nat × Nat × Nat
  | [], _, best => best
  | a :: as, i, best =>
    bestOverA b as (i + 1) (bestOverB (a :: as) i b 0 best)

/-- Longest matching block `(i, j, size)` of two character lists,
with difflib's tie-breaking (earliest in `a`, then earliest in `b`). -/
def longestBlock (a b : List Char) : Nat × Nat × Nat :=
  bestOverA b a 0 (0, 0, 0)

/-- Total size of all matching blocks (`get_matching_blocks` recursion);
`fuel` bounds the recursion depth and `|a| + |b|` always suffices. -/
def matchTotal : Nat → List Char → List Char → Nat
  | 0, _, _ => 0
  | fuel + 1, a, b =>
    let best := longestBlock a b
    let i := best.1
    let j := best.2.1
    let k := best.2.2
    if k = 0 then 0
    else
      matchTotal fuel (a.take i) (b.take j) + k +
        matchTotal fuel (a.drop (i + k)) (b.drop (j + k))

/-- An exact non-negative fraction kept unnormalized, used to model the
similarity scores the source holds as floats; comparisons are by
cross-multiplication.  Every fraction built below has a positive
denominator. -/
structure Frac where
  num : Nat
  den : Nat
deriving DecidableEq, Repr

/-- The rational value of a `Frac`. -/
def Frac.toRat (f : Frac) : ℚ :=
  (f.num : ℚ) / (f.den : ℚ)

/-- Strict comparison of fractions (exact, by cross-multiplication). -/
def Frac.blt (x y : Frac) : Bool :=
  x.num * y.den < y.num * x.den

/-- Non-strict comparison of fractions. -/
def Frac.ble (x y : Frac) : Bool :=
  x.num * y.den ≤ y.num * x.den

/-- The fraction `f + 1/10`, used for the directionality-repair margin. -/
def Frac.addTenth (f : Frac) : Frac :=
  ⟨10 * f.num + f.den, 10 * f.den⟩

/-- `difflib.SequenceMatcher(None, a, b).ratio()` as an exact fraction:
`2 * totalMatched / (len a + len b)`, and `1` when both are empty. -/
def simFrac (a b : String) : Frac :=
  let la := a.data
  let lb := b.data
  let t := la.length + lb.length
  if t = 0 then ⟨1, 1⟩ else ⟨2 * matchTotal t la lb, t⟩

/-- The similarity score as a rational in `[0, 1]`. -/
def simScore (a b : String) : ℚ :=
  (simFrac a b).toRat

theorem simFrac_den_pos (a b : String) : 0 < (simFrac a b).den := by
  simp only [simFrac]
  split
  · exact Nat.one_pos
  · rename_i h
    show 0 < a.data.length + b.data.length
    omega

theorem Frac.blt_iff {x y : Frac} (hx : 0 < x.den) (hy : 0 < y.den) :
    x.blt y = true ↔ x.toRat < y.toRat := by
  unfold Frac.blt Frac.toRat
  rw [div_lt_div_iff₀ (by exact_mod_cast hx) (by exact_mod_cast hy)]
  rw [decide_eq_true_eq]
  constructor
  · intro h
    exact_mod_cast h
  · intro h
    exact_mod_cast h

theorem Frac.ble_iff {x y : Frac} (hx : 0 < x.den) (hy : 0 < y.den) :
    x.ble y = true ↔ x.toRat ≤ y.toRat := by
  unfold Frac.ble Frac.toRat
  rw [div_le_div_iff₀ (by exact_mod_cast hx) (by exact_mod_cast hy)]
  rw [decide_eq_true_eq]
  constructor
  · intro h
    exact_mod_cast h
  · intro h
    exact_mod_cast h

theorem Frac.addTenth_toRat {f : Frac} (hf : 0 < f.den) :
    f.addTenth.toRat = f.toRat + 1 / 10 := by
  unfold Frac.addTenth Frac.toRat
  have hd : ((f.den : ℚ)) ≠ 0 := by
    exact_mod_cast Nat.pos_iff_ne_zero.mp hf
  push_cast
  field_simp
  ring

theorem Frac.addTenth_den_pos {f : Frac} (hf : 0 < f.den) :
    0 < f.addTenth.den := by
  show 0 < 10 * f.den
  omega

/-! ## data_validator.py -/

/-- A Python report-summary dict: metric name → nullable numeric value
(insertion-ordered association list, as Python dicts are). -/
abbrev Summary := List (String × Option ℚ)

/-- `summary.get(k)`: `none` both for an absent key and for a stored null. -/
def sGet (s : Summary) (k : String) : Option ℚ :=
  match s.find? (fun p => p.1 == k) with
  | some p => p.2
  | none => none

/-- `summary[k] = v`: update the first occurrence in place, else append
(Python dict assignment keeps the key's original position). -/
def sSet : Summary → String → Option ℚ → Summary
  | [], k, v => [(k, v)]
  | (k', v') :: t, k, v =>
    if k' = k then (k', v) :: t else (k', v') :: sSet t k v

/-- Python `a or b` on nullable numbers: `a` unless it is `None` or `0`. -/
def pyOrQ (x y : Option ℚ) : Option ℚ :=
  match x with
  | some v => if v = 0 then y else some v
  | none => y

/-- `data_validator.fix_rtl_name`: blind reversal whenever the string
contains a Hebrew-block character. -/
def fixRtlName (name : String) : String :=
  if containsHebrew name then revStr name else name

/-- One fuzzy pass of `match_employee_name`: fold the running
`(best_match, best_ratio)` over the master list, replacing it on a
strictly better similarity against the normalized, lowercased names. -/
def fuzzyPass (masters : List String) (query : String) (init : Option String × Frac) :
    Option String × Frac :=
  masters.foldl
    (fun best m =>
      let r := simFrac (pyLower query) (pyLower (normalizeName m))
      if Frac.blt best.2 r then (some m, r) else best)
    init

/-- The matching threshold used by the `data_validator` call sites. -/
def defaultThreshold : Frac := ⟨7, 10⟩

/-- `data_validator.match_employee_name`: empty-name / empty-roster guards,
exact pass on normalized lowercased equality (confidence 1), fuzzy pass,
reversed pass when still below threshold and reversal changes the string,
then the threshold gate.  The score is an exact fraction. -/
def matchCore (threshold : Frac) (name : String) (masters : List String) :
    Option String × Frac :=
  if name = "" then (none, ⟨0, 1⟩)
  else if masters = [] then (none, ⟨0, 1⟩)
  else
    let nameNorm := normalizeName name
    match masters.find? (fun m => pyLower (normalizeName m) == pyLower nameNorm) with
    | some m => (some m, ⟨1, 1⟩)
    | none =>
      let b1 := fuzzyPass masters nameNorm (none, ⟨0, 1⟩)
      let b2 :=
        if Frac.blt b1.2 threshold then
          let nameRev := fixRtlName nameNorm
          if nameRev ≠ nameNorm then fuzzyPass masters nameRev b1 else b1
        else b1
      match b2.1 with
      | some m => if m != "" && Frac.ble threshold b2.2 then (some m, b2.2) else (none, b2.2)
      | none => (none, b2.2)

/-- `match_employee_name` with the score as a rational. -/
def matchEmployeeName (threshold : Frac) (name : String) (masters : List String) :
    Option String × ℚ :=
  let c := matchCore threshold name masters
  (c.1, c.2.toRat)

/-- Round half-to-even to an integer (Python `round` on an exact value). -/
def roundHalfEven (q : ℚ) : ℤ :=
  let f := ⌊q⌋
  let r := q - (f : ℚ)
  if r < 1 / 2 then f
  else if 1 / 2 < r then f + 1
  else if f % 2 = 0 then f else f + 1

/-- Python `f"{q:.1f}"` for the non-negative deviation percentages. -/
def fmt1 (q : ℚ) : String :=
  let n := roundHalfEven (q * 10)
  toString (n / 10) ++ "." ++ toString (n % 10)

/-- Python `round(q, 2)`. -/
def round2 (q : ℚ) : ℚ :=
  (roundHalfEven (q * 100) : ℚ) / 100

/-- `data_validator.validate_hours`. -/
def validateHours (reported : Option ℚ) (standard tolerance : ℚ) : Bool × String :=
  match reported with
  | none => (true, "No validation")
  | some r =>
    if standard ≤ 0 then (true, "No validation")
    else
      let deviation := |r - standard|
      let deviationPercent := if standard > 0 then deviation / standard * 100 else 0
      if deviationPercent ≤ tolerance then (true, "OK")
      else (false, "⚠️ Irregular Hours (" ++ fmt1 deviationPercent ++ "% deviation)")

/-- One roster entry's payload (`company_name`, `standard_hours`). -/
structure MasterInfo where
  company_name : String
  standard_hours : ℚ
deriving DecidableEq, Repr

/-- The master employee dict: canonical name → payload. -/
abbrev MasterDict := List (String × MasterInfo)

/-- `master_dict.get(name)`. -/
def mdGet (d : MasterDict) (k : String) : Option MasterInfo :=
  (d.find? (fun p => p.1 == k)).map (·.2)

/-- `list(master_dict.keys())`. -/
def masterNames (d : MasterDict) : List String :=
  d.map (·.1)

/-- One parsed report (the external collaborator's RawRecord). -/
structure RawRecord where
  file : Option String := none
  employee_name : Option String := none
  employee_id : Option String := none
  report_period : Option String := none
  report_summary : Summary := []
deriving DecidableEq, Repr

/-- One output row of `validate_and_unify_data` (the input dict plus the
overwritten/added validation fields). -/
structure ValidatedRecord where
  employee_name : String
  company_name : String
  standard_hours : Option ℚ
  reported_hours : Option ℚ
  hours_status : String
  matchScore : ℚ
  report_summary : Summary
  employee_id : Option String
  report_period : Option String
  file : Option String
deriving DecidableEq, Repr

/-- The duplicate key used by `validate_and_unify_data`:
`normalize_name(name).lower()`. -/
def normKeyOf (name : String) : String :=
  pyLower (normalizeName name)

/-- The duplicate-merge of `validate_and_unify_data`: for each key of the
new summary whose value is non-null, overwrite the existing value when it
is null or numerically smaller. -/
def mergeSummaries (old new : Summary) : Summary :=
  new.foldl
    (fun acc kv =>
      match kv.2 with
      | none => acc
      | some nv =>
        match sGet acc kv.1 with
        | none => sSet acc kv.1 (some nv)
        | some ov => if nv > ov then sSet acc kv.1 (some nv) else acc)
    old

/-- Merge the new summary into the first already-validated record whose
normalized lowercased name equals the duplicate key. -/
def mergeIntoFirst : List ValidatedRecord → String → Summary → List ValidatedRecord
  | [], _, _ => []
  | v :: t, nk, newSummary =>
    if normKeyOf v.employee_name = nk then
      { v with report_summary := mergeSummaries v.report_summary newSummary } :: t
    else
      v :: mergeIntoFirst t nk newSummary

/-- Python truthiness of the optional matched name (`if matched_name:`):
`None` and the empty string are both falsy. -/
def truthyName : Option String → Option String
  | none => none
  | some s => if s = "" then none else some s

/-- The loop body of `validate_and_unify_data`; the state is the pair
(validated results so far, seen duplicate keys). -/
def unifyStep (master : MasterDict) (st : List ValidatedRecord × List String)
    (result : RawRecord) : List ValidatedRecord × List String :=
  match truthyName result.employee_name with
  | none => st
  | some name =>
    let summary := result.report_summary
    let m := matchCore defaultThreshold name (masterNames master)
    match truthyName m.1 with
    | some matchedName =>
      let info := (mdGet master matchedName).getD ⟨"", 0⟩
      let nk := normKeyOf matchedName
      if nk ∈ st.2 then
        (mergeIntoFirst st.1 nk result.report_summary, st.2)
      else
        let reported :=
          pyOrQ (sGet summary ("total_presence_hours")) (sGet summary ("total_approved_hours"))
        let vh := validateHours reported info.standard_hours 10
        (st.1 ++ [{ employee_name := matchedName
                    company_name := info.company_name
                    standard_hours := some info.standard_hours
                    reported_hours := reported
                    hours_status := vh.2
                    matchScore := m.2.toRat
                    report_summary := result.report_summary
                    employee_id := result.employee_id
                    report_period := result.report_period
                    file := result.file }],
         st.2 ++ [nk])
    | none =>
      let reported :=
        pyOrQ (sGet summary ("total_presence_hours")) (sGet summary ("total_approved_hours"))
      (st.1 ++ [{ employee_name := "**CHECK: " ++ name
                  company_name := ""
                  standard_hours := none
                  reported_hours := reported
                  hours_status := "Unmatched"
                  matchScore := m.2.toRat
                  report_summary := result.report_summary
                  employee_id := result.employee_id
                  report_period := result.report_period
                  file := result.file }],
       st.2)

/-- `data_validator.validate_and_unify_data`. -/
def validateAndUnifyData (master : MasterDict) (rs : List RawRecord) :
    List ValidatedRecord :=
  (rs.foldl (unifyStep master) ([], [])).1

/-! ## data_validator.apply_vacation_completion -/

/-- The fixed conversion constant (8.6 hours per vacation day). -/
def HOURS_PER_VACATION_DAY : ℚ := 8.6

/-- The standard hours the vacation pass resolves for a record's name:
match the name against the master list, then read `standard_hours`
(`None` without a match; Python also treats an empty matched name
as falsy). -/
def resolveStandard (master : MasterDict) (name : String) : Option ℚ :=
  if masterNames master = [] then none
  else
    match truthyName (matchCore defaultThreshold name (masterNames master)).1 with
    | some m => (mdGet master m).map (·.standard_hours)
    | none => none

/-- The per-record body of `apply_vacation_completion`: `none` when any
precondition fails (pass-through), otherwise the updated summary. -/
def vacationUpdate (master : MasterDict) (name : String) (summary : Summary) :
    Option Summary :=
  match resolveStandard master name with
  | none => none
  | some standard =>
    if standard ≤ 0 then none
    else
      match sGet summary ("total_presence_hours"), sGet summary ("vacation_days") with
      | some reported, some vacationDays =>
        if reported ≥ standard ∨ vacationDays ≤ 0 then none
        else
          let hoursNeeded := standard - reported
          let vacationHoursAvailable := vacationDays * HOURS_PER_VACATION_DAY
          let hoursToUse := min hoursNeeded vacationHoursAvailable
          if hoursToUse ≤ 0 then none
          else
            let newReported := reported + hoursToUse
            let newVacationDays := (vacationHoursAvailable - hoursToUse) / HOURS_PER_VACATION_DAY
            some (sSet (sSet (sSet (sSet summary
              ("original_presence_hours") (some reported))
              ("auto_completed_hours") (some (round2 hoursToUse)))
              ("total_presence_hours") (some (round2 newReported)))
              ("vacation_days") (some (round2 newVacationDays)))
      | _, _ => none

/-- Value-level view of one `apply_vacation_completion` loop iteration. -/
def applyVacationStep (master : MasterDict) (r : RawRecord) : RawRecord :=
  match truthyName r.employee_name with
  | none => r
  | some name =>
    match vacationUpdate master name r.report_summary with
    | none => r
    | some s' => { r with report_summary := s' }

/-- Value-level view of `apply_vacation_completion` over a batch. -/
def applyVacationCompletion (master : MasterDict) (rs : List RawRecord) :
    List RawRecord :=
  rs.map (applyVacationStep master)

/-! ### Heap view of the vacation pass

In Python a record holds a *reference* to its mutable `report_summary`
dict.  To reason about in-place mutation the summaries live in a store
indexed by `Nat` references; the loop writes updated summaries back
through the record's reference and returns the very record list it was
given (`return all_results`). -/

/-- A RawRecord whose summary is a reference into the store. -/
structure RecordRef where
  file : Option String := none
  employee_name : Option String := none
  employee_id : Option String := none
  report_period : Option String := none
  summaryRef : Nat := 0
deriving DecidableEq, Repr

/-- The heap of summary dicts. -/
abbrev Store := List Summary

/-- Dereference a summary. -/
def storeGet (st : Store) (r : Nat) : Summary :=
  st.getD r []

/-- Overwrite a summary in place. -/
def storeSet (st : Store) (r : Nat) (d : Summary) : Store :=
  st.set r d

/-- One loop iteration of `apply_vacation_completion` on the store. -/
def vacationHeapStep (master : MasterDict) (st : Store) (rec : RecordRef) : Store :=
  match truthyName rec.employee_name with
  | none => st
  | some name =>
    match vacationUpdate master name (storeGet st rec.summaryRef) with
    | none => st
    | some s' => storeSet st rec.summaryRef s'

/-- `apply_vacation_completion`: mutate the store through each record's
summary reference and return the input record list itself. -/
def applyVacationCompletionH (master : MasterDict) (st : Store) (rs : List RecordRef) :
    Store × List RecordRef :=
  (rs.foldl (vacationHeapStep master) st, rs)

/-! ### Heap view of the unification merge

`validated_result = result.copy()` is a shallow copy: the output row
keeps the input record's *reference* to its `report_summary` dict.  The
duplicate merge then executes `existing_summary[key] = new_val` through
the seed row's reference, i.e. it writes into the dict that the seed's
input record still points at. -/

/-- A validated row whose summary is the reference taken over from the
input record by the shallow `result.copy()`. -/
structure ValidatedRecordH where
  employee_name : String
  company_name : String
  standard_hours : Option ℚ
  reported_hours : Option ℚ
  hours_status : String
  matchScore : ℚ
  summaryRef : Nat
  employee_id : Option String
  report_period : Option String
  file : Option String
deriving DecidableEq, Repr

/-- The duplicate merge on the store: write the merged summary back
through the reference of the first already-validated row whose
normalized lowercased name equals the duplicate key. -/
def mergeIntoFirstH (st : Store) : List ValidatedRecordH → String → Summary → Store
  | [], _, _ => st
  | v :: t, nk, newSummary =>
    if normKeyOf v.employee_name = nk then
      storeSet st v.summaryRef (mergeSummaries (storeGet st v.summaryRef) newSummary)
    else
      mergeIntoFirstH st t nk newSummary

/-- The loop body of `validate_and_unify_data` on the store; the state is
(store, validated rows so far, seen duplicate keys). -/
def unifyStepH (master : MasterDict)
    (state : Store × List ValidatedRecordH × List String) (result : RecordRef) :
    Store × List ValidatedRecordH × List String :=
  match truthyName result.employee_name with
  | none => state
  | some name =>
    let summary := storeGet state.1 result.summaryRef
    let m := matchCore defaultThreshold name (masterNames master)
    match truthyName m.1 with
    | some matchedName =>
      let info := (mdGet master matchedName).getD ⟨"", 0⟩
      let nk := normKeyOf matchedName
      if nk ∈ state.2.2 then
        (mergeIntoFirstH state.1 state.2.1 nk summary, state.2.1, state.2.2)
      else
        let reported :=
          pyOrQ (sGet summary ("total_presence_hours")) (sGet summary ("total_approved_hours"))
        let vh := validateHours reported info.standard_hours 10
        (state.1,
         state.2.1 ++ [{ employee_name := matchedName
                         company_name := info.company_name
                         standard_hours := some info.standard_hours
                         reported_hours := reported
                         hours_status := vh.2
                         matchScore := m.2.toRat
                         summaryRef := result.summaryRef
                         employee_id := result.employee_id
                         report_period := result.report_period
                         file := result.file }],
         state.2.2 ++ [nk])
    | none =>
      let reported :=
        pyOrQ (sGet summary ("total_presence_hours")) (sGet summary ("total_approved_hours"))
      (state.1,
       state.2.1 ++ [{ employee_name := "**CHECK: " ++ name
                       company_name := ""
                       standard_hours := none
                       reported_hours := reported
                       hours_status := "Unmatched"
                       matchScore := m.2.toRat
                       summaryRef := result.summaryRef
                       employee_id := result.employee_id
                       report_period := result.report_period
                       file := result.file }],
       state.2.2)

/-- `validate_and_unify_data` on the store: fold the loop body over the
batch and return the final store together with the validated rows. -/
def validateAndUnifyDataH (master : MasterDict) (st : Store) (rs : List RecordRef) :
    Store × List ValidatedRecordH :=
  ((rs.foldl (unifyStepH master) (st, [], [])).1,
   (rs.foldl (unifyStepH master) (st, [], [])).2.1)

/-! ## report_parser._fix_rtl_name -/

/-- One iteration of `report_parser._fix_rtl_name`'s loop: update the
running best similarity of the stripped original and of the stripped
reversal against one stripped reference name (the loop's `best_match_*`
name variables are never read and are omitted). -/
def rpStep (nameNorm nameRev : String) (b : Frac × Frac) (m : String) : Frac × Frac :=
  let mNorm := pyStrip m
  let ro := simFrac (pyLower nameNorm) (pyLower mNorm)
  let rr := simFrac (pyLower nameRev) (pyLower mNorm)
  ((if Frac.blt b.1 ro then ro else b.1), (if Frac.blt b.2 rr then rr else b.2))

/-- The one-pass fold of `report_parser._fix_rtl_name`. -/
def rpBestPair (employeeNames : List String) (nameNorm nameRev : String) : Frac × Frac :=
  employeeNames.foldl (rpStep nameNorm nameRev) (⟨0, 1⟩, ⟨0, 1⟩)

/-- `report_parser._fix_rtl_name` (the reference list is the module-level
`EMPLOYEE_NAMES`, passed explicitly here): keep the name unless it
contains Hebrew, a non-empty reference list exists, and the stripped
reversal beats the stripped original by more than `0.1`. -/
def rpFixRtlName (name : String) (employeeNames : List String) : String :=
  if name = "" then name
  else if ¬ containsHebrew name then name
  else if employeeNames = [] then name
  else
    let nameNorm := pyStrip name
    let nameRev := pyStrip (revStr name)
    let best := rpBestPair employeeNames nameNorm nameRev
    if Frac.blt (Frac.addTenth best.1) best.2 then nameRev else name

/-- The best similarity of `query` against the stripped, lowercased
reference names, as a rational (`0` for an empty list). -/
def rpBestScore (employeeNames : List String) (query : String) : ℚ :=
  (employeeNames.map (fun m => simScore (pyLower query) (pyLower (pyStrip m)))).foldr max 0

/-- The margin condition of the comparison-driven directionality repair:
Hebrew present and the reversal's best reference similarity exceeds the
original's by more than `0.1`. -/
def marginCond (name : String) (employeeNames : List String) : Prop :=
  containsHebrew name = true ∧
    rpBestScore employeeNames (pyStrip name) + 1 / 10 <
      rpBestScore employeeNames (pyStrip (revStr name))

/-- Python `s.startswith(p)`. -/
def pyStartsWith (s p : String) : Bool :=
  p.data.isPrefixOf s.data

/-- Lexicographic order on character lists (the string order pandas uses
to sort the `norm_name` column). -/
def strLtList : List Char → List Char → Bool
  | [], [] => false
  | [], _ :: _ => true
  | _ :: _, [] => false
  | a :: as, b :: bs => if a < b then true else if b < a then false else strLtList as bs

/-- Lexicographic string comparison. -/
def strLtB (a b : String) : Bool :=
  strLtList a.data b.data

/-! ## google_sheets_updater.py -/

/-- `google_sheets_updater._fix_rtl_name`: blind reversal on Hebrew. -/
def gsFixRtlName (name : String) : String :=
  if containsHebrew name then revStr name else name

/-- The inline normalization of `get_best_name_match` /
`deduplicate_results`' master comparison: strip, replace `-`/`"`/`'` by
spaces, `' '.join(s.split())`. -/
def normGsName (s : String) : String :=
  pyStrip (collapseWs (replacePunct (pyStrip s)))

/-- One fuzzy pass of `get_best_name_match`: update on a strictly better
similarity that also clears the `0.7` threshold. -/
def gsFuzzyPass (masters : List String) (query : String) (init : Option String × Frac) :
    Option String × Frac :=
  masters.foldl
    (fun best m =>
      let r := simFrac (pyLower query) (pyLower (normGsName m))
      if Frac.blt best.2 r && Frac.ble ⟨7, 10⟩ r then (some m, r) else best)
    init

/-- `google_sheets_updater.get_best_name_match`: names already carrying
the review prefix are returned untouched; guard cases for empty inputs;
fuzzy pass, then a reversed pass only when nothing matched and the blind
reversal changes the string; unmatched names gain the `**CHECK: `
prefix. -/
def getBestNameMatch (name : String) (masters : List String) : String :=
  if name != "" && pyStartsWith name ("**CHECK:") then name
  else if name = "" || masters.isEmpty then
    (if masters.isEmpty then (if name != "" then "**CHECK: " ++ name else name) else name)
  else
    let q := normGsName name
    let b1 := gsFuzzyPass masters q (none, ⟨0, 1⟩)
    let b2 :=
      match b1.1 with
      | some _ => b1
      | none =>
        let rev := gsFixRtlName q
        if rev ≠ q then gsFuzzyPass masters rev b1 else b1
    match b2.1 with
    | some m => m
    | none => "**CHECK: " ++ name

/-! ## deduplicate_results (google_sheets_updater) -/

/-- The pandas normalization of the name column: `astype(str)` (None
becomes `"None"`), strip, punctuation to spaces, collapse whitespace runs
(without re-stripping), then the exact-value replacements
`'None' → 'UNKNOWN'` and `'' → 'UNKNOWN'`. -/
def pandasNormName (x : Option String) : String :=
  let s := match x with | none => "None" | some s => s
  let s := collapseWs (replacePunct (pyStrip s))
  if s = "None" then "UNKNOWN" else if s = "" then "UNKNOWN" else s

/-- The pandas normalization of the id column: `fillna('NO_ID')`,
`'' → 'NO_ID'`, `astype(str)`, `'None' → 'NO_ID'`. -/
def pandasNormId (x : Option String) : String :=
  match x with
  | none => "NO_ID"
  | some s => if s = "" then "NO_ID" else if s = "None" then "NO_ID" else s

/-- The seven metric columns counted by `deduplicate_results`. -/
def hourCols : List String :=
  ["total_presence_hours", "total_approved_hours", "total_payable_hours",
   "overtime_hours", "vacation_days", "sick_days", "holiday_days"]

/-- The name-unification lambda applied to the name column when a master
list is present: `**CHECK:`-prefixed names pass through, otherwise
`get_best_name_match`; missing names pass through. -/
def unifiedName (masters : List String) (x : Option String) : Option String :=
  if masters.isEmpty then x
  else
    match x with
    | none => none
    | some s =>
      if s != "" && pyStartsWith s ("**CHECK:") then some s
      else some (getBestNameMatch s masters)

/-- One flattened DataFrame row with its helper columns. -/
structure Row where
  file : Option String
  employee_name : Option String
  employee_id : Option String
  report_period : Option String
  metrics : Summary
  norm_name : String
  norm_id : String
  has_id : Nat
  hour_count : Nat
deriving DecidableEq, Repr

/-- Flatten one record into a row and compute `norm_name`, `norm_id`,
`has_id` and `hour_count` as `deduplicate_results` does. -/
def mkRow (masters : List String) (r : RawRecord) : Row :=
  let uname := unifiedName masters r.employee_name
  let nid := pandasNormId r.employee_id
  { file := r.file
    employee_name := uname
    employee_id := r.employee_id
    report_period := r.report_period
    metrics := r.report_summary
    norm_name := pandasNormName uname
    norm_id := nid
    has_id := if nid ≠ "NO_ID" then 1 else 0
    hour_count := (hourCols.filter (fun c => (sGet r.report_summary c).isSome)).length }

/-- The deduplication key: `(norm_name, norm_id)`. -/
def rowKey (r : Row) : String × String :=
  (r.norm_name, r.norm_id)

/-- The sort order of `sort_values(by=['norm_name','has_id','hour_count'],
ascending=[True, False, False])`. -/
def rowLe (a b : Row) : Bool :=
  strLtB a.norm_name b.norm_name ||
    (a.norm_name == b.norm_name &&
      (decide (b.has_id < a.has_id) ||
        (a.has_id == b.has_id && decide (b.hour_count ≤ a.hour_count))))

/-- `drop_duplicates(subset=['norm_name','norm_id'], keep='first')`. -/
def dedupByKey (seen : List (String × String)) : List Row → List Row
  | [] => []
  | r :: t =>
    if rowKey r ∈ seen then dedupByKey seen t
    else r :: dedupByKey (rowKey r :: seen) t

/-- Insert into a sorted list (used to model `sort_values`; pandas'
default quicksort leaves the order of ties unspecified, so any sort by
`rowLe` is a faithful model and a stable one is chosen). -/
def insertLe (le : Row → Row → Bool) (x : Row) : List Row → List Row
  | [] => [x]
  | y :: t => if le x y then x :: y :: t else y :: insertLe le x t

/-- Sort by `le` (insertion sort). -/
def sortLe (le : Row → Row → Bool) : List Row → List Row
  | [] => []
  | x :: t => insertLe le x (sortLe le t)

/-- The sorted, key-deduplicated row list of `deduplicate_results`. -/
def dedupRows (masters : List String) (rs : List RawRecord) : List Row :=
  dedupByKey [] (sortLe rowLe (rs.map (mkRow masters)))

/-- Rebuild the output records: the unified name and, in the summary,
exactly the non-null metric values (`pd.notna` filter). -/
def rowToRecord (r : Row) : RawRecord :=
  { file := r.file
    employee_name := r.employee_name
    employee_id := r.employee_id
    report_period := r.report_period
    report_summary := r.metrics.filter (fun kv => kv.2.isSome) }

/-- `google_sheets_updater.deduplicate_results`. -/
def dedupResults (masters : List String) (rs : List RawRecord) : List RawRecord :=
  (dedupRows masters rs).map rowToRecord

/-- The completeness score of a flattened row: `has_id` plus the count of
non-null well-known metric values. -/
def rowCompleteness (r : Row) : Nat :=
  r.has_id + r.hour_count

/-! ## Score lemmas -/

theorem Frac.toRat_nonneg (f : Frac) : 0 ≤ f.toRat := by
  unfold Frac.toRat
  positivity

theorem simScore_nonneg (a b : String) : 0 ≤ simScore a b :=
  Frac.toRat_nonneg _

/-- The best same-orientation (or reversed) fuzzy score of a query
against the normalized, lowercased master names. -/
def bestScoreFrom (masters : List String) (q : String) : ℚ :=
  (masters.map (fun m => simScore (pyLower q) (pyLower (normalizeName m)))).foldr max 0

theorem bestScoreFrom_nonneg (masters : List String) (q : String) :
    0 ≤ bestScoreFrom masters q := by
  induction masters with
  | nil => exact le_refl 0
  | cons m t ih =>
    have : bestScoreFrom (m :: t) q = max (simScore (pyLower q) (pyLower (normalizeName m))) (bestScoreFrom t q) := rfl
    rw [this]
    exact le_trans ih (le_max_right _ _)

theorem fuzzyPass_den_pos (masters : List String) (q : String)
    (init : Option String × Frac) (h : 0 < init.2.den) :
    0 < (fuzzyPass masters q init).2.den := by
  induction masters generalizing init with
  | nil => exact h
  | cons m t ih =>
    show 0 < (fuzzyPass t q _).2.den
    apply ih
    by_cases hb : Frac.blt init.2 (simFrac (pyLower q) (pyLower (normalizeName m)))
    · simp only [hb, if_pos]
      exact simFrac_den_pos _ _
    · simp only [hb]
      simpa using h

theorem fuzzyPass_toRat (masters : List String) (q : String)
    (init : Option String × Frac) (h : 0 < init.2.den) :
    ((fuzzyPass masters q init).2).toRat = max init.2.toRat (bestScoreFrom masters q) := by
  induction masters generalizing init with
  | nil =>
    show init.2.toRat = max init.2.toRat 0
    rw [max_eq_left (Frac.toRat_nonneg _)]
  | cons m t ih =>
    have hbsf : bestScoreFrom (m :: t) q
        = max (simScore (pyLower q) (pyLower (normalizeName m))) (bestScoreFrom t q) := rfl
    set r := simFrac (pyLower q) (pyLower (normalizeName m)) with hr
    have hrd : 0 < r.den := simFrac_den_pos _ _
    show ((fuzzyPass t q (if Frac.blt init.2 r then (some m, r) else init)).2).toRat = _
    by_cases hb : Frac.blt init.2 r = true
    · rw [if_pos hb]
      rw [ih (some m, r) hrd]
      have hlt : init.2.toRat < r.toRat := (Frac.blt_iff h hrd).mp hb
      rw [hbsf]
      show max r.toRat (bestScoreFrom t q) = max init.2.toRat (max r.toRat (bestScoreFrom t q))
      rw [← max_assoc, max_eq_right (le_of_lt hlt)]
    · rw [if_neg (by simpa using hb)]
      rw [ih init h]
      have hle : r.toRat ≤ init.2.toRat := by
        have := (Frac.blt_iff h hrd).not.mp (by simp [hb])
        exact le_of_not_lt this
      rw [hbsf]
      show max init.2.toRat (bestScoreFrom t q) = max init.2.toRat (max r.toRat (bestScoreFrom t q))
      rw [← max_assoc, max_eq_left hle]

/-- The simultaneous fold of `_fix_rtl_name` computes, in each component,
the best score of the corresponding query. -/
theorem rpPairFold (names : List String) (nn nr : String) :
    ∀ init : Frac × Frac, 0 < init.1.den → 0 < init.2.den →
      ((names.foldl (rpStep nn nr) init).1.toRat = max init.1.toRat (rpBestScore names nn) ∧
        0 < (names.foldl (rpStep nn nr) init).1.den) ∧
      ((names.foldl (rpStep nn nr) init).2.toRat = max init.2.toRat (rpBestScore names nr) ∧
        0 < (names.foldl (rpStep nn nr) init).2.den) := by
  induction names with
  | nil =>
    intro init h1 h2
    refine ⟨⟨?_, h1⟩, ?_, h2⟩
    · show init.1.toRat = max init.1.toRat 0
      rw [max_eq_left (Frac.toRat_nonneg _)]
    · show init.2.toRat = max init.2.toRat 0
      rw [max_eq_left (Frac.toRat_nonneg _)]
  | cons m t ih =>
    intro init h1 h2
    set ro := simFrac (pyLower nn) (pyLower (pyStrip m)) with hro
    set rr := simFrac (pyLower nr) (pyLower (pyStrip m)) with hrr
    have hrod : 0 < ro.den := simFrac_den_pos _ _
    have hrrd : 0 < rr.den := simFrac_den_pos _ _
    have hstep : rpStep nn nr init m
        = ((if Frac.blt init.1 ro then ro else init.1),
           (if Frac.blt init.2 rr then rr else init.2)) := rfl
    have step1 : (if Frac.blt init.1 ro then ro else init.1).toRat
        = max init.1.toRat ro.toRat := by
      by_cases hb : Frac.blt init.1 ro = true
      · rw [if_pos hb, max_eq_right (le_of_lt ((Frac.blt_iff h1 hrod).mp hb))]
      · rw [if_neg (by simpa using hb)]
        rw [max_eq_left (le_of_not_lt ((Frac.blt_iff h1 hrod).not.mp (by simp [hb])))]
    have step2 : (if Frac.blt init.2 rr then rr else init.2).toRat
        = max init.2.toRat rr.toRat := by
      by_cases hb : Frac.blt init.2 rr = true
      · rw [if_pos hb, max_eq_right (le_of_lt ((Frac.blt_iff h2 hrrd).mp hb))]
      · rw [if_neg (by simpa using hb)]
        rw [max_eq_left (le_of_not_lt ((Frac.blt_iff h2 hrrd).not.mp (by simp [hb])))]
    have sd1 : 0 < (if Frac.blt init.1 ro then ro else init.1).den := by
      by_cases hb : Frac.blt init.1 ro = true
      · rw [if_pos hb]; exact hrod
      · rw [if_neg (by simpa using hb)]; exact h1
    have sd2 : 0 < (if Frac.blt init.2 rr then rr else init.2).den := by
      by_cases hb : Frac.blt init.2 rr = true
      · rw [if_pos hb]; exact hrrd
      · rw [if_neg (by simpa using hb)]; exact h2
    obtain ⟨⟨e1, d1⟩, e2, d2⟩ :=
      ih ((if Frac.blt init.1 ro then ro else init.1), (if Frac.blt init.2 rr then rr else init.2)) sd1 sd2
    rw [List.foldl_cons, hstep]
    refine ⟨⟨?_, d1⟩, ?_, d2⟩
    · rw [e1]
      show max (if Frac.blt init.1 ro then ro else init.1).toRat (rpBestScore t nn)
        = max init.1.toRat (max ro.toRat (rpBestScore t nn))
      rw [step1, max_assoc]
    · rw [e2]
      show max (if Frac.blt init.2 rr then rr else init.2).toRat (rpBestScore t nr)
        = max init.2.toRat (max rr.toRat (rpBestScore t nr))
      rw [step2, max_assoc]

/-! ## Dictionary lemmas -/

theorem sGet_cons (k₀ : String) (v : Option ℚ) (t : Summary) (k : String) :
    sGet ((k₀, v) :: t) k = if k₀ = k then v else sGet t k := by
  by_cases h : k₀ = k
  · simp [sGet, List.find?, h]
  · have hb : ((k₀, v).1 == k) = false := by
      simpa using h
    simp only [sGet, List.find?, hb]
    rw [if_neg h]

theorem sGet_eq_none_of_not_mem {t : Summary} {k : String}
    (h : k ∉ t.map Prod.fst) : sGet t k = none := by
  induction t with
  | nil => rfl
  | cons p t ih =>
    obtain ⟨k₀, v⟩ := p
    simp only [List.map_cons, List.mem_cons] at h
    push_neg at h
    rw [sGet_cons, if_neg (fun hh => h.1 hh.symm)]
    exact ih h.2

theorem sGet_sSet_same (s : Summary) (k : String) (v : Option ℚ) :
    sGet (sSet s k v) k = v := by
  induction s with
  | nil =>
    show sGet [(k, v)] k = v
    rw [sGet_cons, if_pos rfl]
  | cons p t ih =>
    obtain ⟨k', v'⟩ := p
    by_cases h : k' = k
    · show sGet (if k' = k then (k', v) :: t else (k', v') :: sSet t k v) k = v
      rw [if_pos h, sGet_cons, if_pos h]
    · show sGet (if k' = k then (k', v) :: t else (k', v') :: sSet t k v) k = v
      rw [if_neg h, sGet_cons, if_neg h]
      exact ih

theorem sGet_sSet_ne (s : Summary) (k k' : String) (v : Option ℚ) (h : k' ≠ k) :
    sGet (sSet s k v) k' = sGet s k' := by
  induction s with
  | nil =>
    show sGet [(k, v)] k' = sGet [] k'
    rw [sGet_cons, if_neg (fun hh => h hh.symm)]
  | cons p t ih =>
    obtain ⟨k₀, v₀⟩ := p
    show sGet (if k₀ = k then (k₀, v) :: t else (k₀, v₀) :: sSet t k v) k' = _
    by_cases h₀ : k₀ = k
    · rw [if_pos h₀, sGet_cons, sGet_cons]
      have : k₀ ≠ k' := fun hh => h (h₀ ▸ hh ▸ rfl)
      rw [if_neg this, if_neg this]
    · rw [if_neg h₀, sGet_cons, sGet_cons]
      by_cases hk : k₀ = k'
      · rw [if_pos hk, if_pos hk]
      · rw [if_neg hk, if_neg hk]
        exact ih

/-- The single-step body of `mergeSummaries`. -/
def mergeStep (acc : Summary) (kv : String × Option ℚ) : Summary :=
  match kv.2 with
  | none => acc
  | some nv =>
    match sGet acc kv.1 with
    | none => sSet acc kv.1 (some nv)
    | some ov => if nv > ov then sSet acc kv.1 (some nv) else acc

theorem mergeSummaries_eq_foldl (old new : Summary) :
    mergeSummaries old new = new.foldl mergeStep old := by
  rfl

theorem sGet_mergeStep_ne (acc : Summary) (kv : String × Option ℚ) {k : String}
    (h : kv.1 ≠ k) : sGet (mergeStep acc kv) k = sGet acc k := by
  obtain ⟨k₀, v₀⟩ := kv
  simp only at h
  rcases v₀ with _ | nv
  · rfl
  · rcases hh : sGet acc k₀ with _ | ov
    · simp only [mergeStep, hh]
      exact sGet_sSet_ne _ _ _ _ (fun hk => h hk.symm)
    · simp only [mergeStep, hh]
      by_cases hcmp : nv > ov
      · rw [if_pos hcmp]
        exact sGet_sSet_ne _ _ _ _ (fun hk => h hk.symm)
      · rw [if_neg hcmp]

theorem sGet_foldl_mergeStep_not_mem (new : Summary) (acc : Summary) {k : String}
    (h : k ∉ new.map Prod.fst) :
    sGet (new.foldl mergeStep acc) k = sGet acc k := by
  induction new generalizing acc with
  | nil => rfl
  | cons kv t ih =>
    simp only [List.map_cons, List.mem_cons] at h
    push_neg at h
    rw [List.foldl_cons]
    rw [ih _ h.2]
    exact sGet_mergeStep_ne acc kv (fun hh => h.1 hh.symm)

/-- The per-key result of the duplicate merge: ignoring null incoming
values, the merged value of a key is the maximum of the existing and the
incoming value, an incoming value filling a null, or the untouched
existing value. -/
theorem sGet_mergeSummaries (old new : Summary) (k : String)
    (hnew : (new.map Prod.fst).Nodup) :
    sGet (mergeSummaries old new) k =
      match sGet new k, sGet old k with
      | none, o => o
      | some nv, none => some nv
      | some nv, some ov => some (max ov nv) := by
  induction new generalizing old with
  | nil => rfl
  | cons kv t ih =>
    obtain ⟨k₀, v₀⟩ := kv
    simp only [List.map_cons, List.nodup_cons] at hnew
    rw [mergeSummaries_eq_foldl, List.foldl_cons, ← mergeSummaries_eq_foldl]
    by_cases hk : k₀ = k
    · subst hk
      have ht : sGet t k₀ = none := sGet_eq_none_of_not_mem hnew.1
      rw [ih _ hnew.2]
      rw [sGet_cons, if_pos rfl, ht]
      rcases v₀ with _ | nv
      · rfl
      · rcases hold : sGet old k₀ with _ | ov
        · simp only [mergeStep, hold]
          rw [sGet_sSet_same]
        · simp only [mergeStep, hold]
          by_cases hcmp : nv > ov
          · rw [if_pos hcmp, sGet_sSet_same]
            rw [max_eq_right (le_of_lt hcmp)]
          · rw [if_neg hcmp, hold]
            rw [max_eq_left (le_of_not_lt hcmp)]
    · rw [ih _ hnew.2]
      rw [sGet_cons, if_neg hk]
      rw [sGet_mergeStep_ne _ _ hk]

/-! ## Sort and deduplication lemmas -/

theorem strLtList_irrefl : ∀ a : List Char, strLtList a a = false
  | [] => rfl
  | c :: cs => by
    simp only [strLtList, lt_irrefl c, if_neg, if_false]
    exact strLtList_irrefl cs

theorem strLtList_trans : ∀ {a b c : List Char},
    strLtList a b = true → strLtList b c = true → strLtList a c = true
  | [], _ :: _, _ :: _, _, _ => rfl
  | x :: xs, y :: ys, z :: zs, hab, hbc => by
    simp only [strLtList] at hab hbc ⊢
    rcases lt_trichotomy x y with hxy | hxy | hxy
    · rcases lt_trichotomy y z with hyz | hyz | hyz
      · rw [if_pos (lt_trans hxy hyz)]
      · subst hyz
        rw [if_pos hxy]
      · rw [if_pos hyz, if_neg (lt_asymm hyz)] at hbc
        exact absurd hbc (by simp)
    · subst hxy
      rw [if_neg (lt_irrefl x), if_neg (lt_irrefl x)] at hab
      rcases lt_trichotomy x z with hyz | hyz | hyz
      · rw [if_pos hyz]
      · subst hyz
        rw [if_neg (lt_irrefl x), if_neg (lt_irrefl x)] at hbc ⊢
        exact strLtList_trans hab hbc
      · rw [if_neg (lt_asymm hyz), if_pos hyz] at hbc
        exact absurd hbc (by simp)
    · rw [if_neg (lt_asymm hxy), if_pos hxy] at hab
      exact absurd hab (by simp)

theorem strLtList_trichotomy : ∀ a b : List Char,
    strLtList a b = true ∨ a = b ∨ strLtList b a = true
  | [], [] => Or.inr (Or.inl rfl)
  | [], _ :: _ => Or.inl rfl
  | _ :: _, [] => Or.inr (Or.inr rfl)
  | x :: xs, y :: ys => by
    rcases lt_trichotomy x y with hxy | hxy | hxy
    · left
      simp only [strLtList]
      rw [if_pos hxy]
    · subst hxy
      rcases strLtList_trichotomy xs ys with h | h | h
      · left
        simp only [strLtList]
        rw [if_neg (lt_irrefl x), if_neg (lt_irrefl x)]
        exact h
      · subst h
        right; left; rfl
      · right; right
        simp only [strLtList]
        rw [if_neg (lt_irrefl x), if_neg (lt_irrefl x)]
        exact h
    · right; right
      simp only [strLtList]
      rw [if_pos hxy]

theorem stringDataEq {s t : String} (h : s.data = t.data) : s = t := by
  cases s
  cases t
  exact congrArg String.mk (by simpa using h)

theorem rowLe_iff (a b : Row) :
    rowLe a b = true ↔
      (strLtB a.norm_name b.norm_name = true ∨
        (a.norm_name = b.norm_name ∧
          (b.has_id < a.has_id ∨ (a.has_id = b.has_id ∧ b.hour_count ≤ a.hour_count)))) := by
  simp [rowLe, Bool.or_eq_true, Bool.and_eq_true, decide_eq_true_eq]

theorem rowLe_total (a b : Row) : rowLe a b = true ∨ rowLe b a = true := by
  rcases strLtList_trichotomy a.norm_name.data b.norm_name.data with h | h | h
  · left
    exact (rowLe_iff a b).mpr (Or.inl h)
  · have hs : a.norm_name = b.norm_name := stringDataEq h
    by_cases h1 : b.has_id < a.has_id
    · exact Or.inl ((rowLe_iff a b).mpr (Or.inr ⟨hs, Or.inl h1⟩))
    · by_cases h2 : a.has_id < b.has_id
      · exact Or.inr ((rowLe_iff b a).mpr (Or.inr ⟨hs.symm, Or.inl h2⟩))
      · have heq : a.has_id = b.has_id := by omega
        by_cases h3 : b.hour_count ≤ a.hour_count
        · exact Or.inl ((rowLe_iff a b).mpr (Or.inr ⟨hs, Or.inr ⟨heq, h3⟩⟩))
        · exact Or.inr ((rowLe_iff b a).mpr (Or.inr ⟨hs.symm, Or.inr ⟨heq.symm, by omega⟩⟩))
  · right
    exact (rowLe_iff b a).mpr (Or.inl h)

theorem strLtB_irrefl_of_eq {s t : String} (h : s = t) : strLtB s t = false := by
  subst h
  exact strLtList_irrefl s.data

theorem rowLe_trans {a b c : Row} (hab : rowLe a b = true) (hbc : rowLe b c = true) :
    rowLe a c = true := by
  rw [rowLe_iff] at hab hbc ⊢
  rcases hab with h1 | ⟨e1, h1⟩
  · rcases hbc with h2 | ⟨e2, h2⟩
    · exact Or.inl (strLtList_trans h1 h2)
    · rw [← e2]
      exact Or.inl h1
  · rcases hbc with h2 | ⟨e2, h2⟩
    · rw [e1]
      exact Or.inl h2
    · refine Or.inr ⟨e1.trans e2, ?_⟩
      omega

theorem insertLe_perm (le : Row → Row → Bool) (x : Row) :
    ∀ l : List Row, (insertLe le x l).Perm (x :: l)
  | [] => List.Perm.refl _
  | y :: t => by
    simp only [insertLe]
    by_cases h : le x y = true
    · rw [if_pos h]
    · rw [if_neg h]
      exact ((insertLe_perm le x t).cons y).trans (List.Perm.swap x y t)

theorem sortLe_perm (le : Row → Row → Bool) :
    ∀ l : List Row, (sortLe le l).Perm l
  | [] => List.Perm.refl _
  | x :: t => (insertLe_perm le x (sortLe le t)).trans ((sortLe_perm le t).cons x)

theorem pairwise_insertLe (le : Row → Row → Bool)
    (htrans : ∀ a b c, le a b = true → le b c = true → le a c = true)
    (htot : ∀ a b, le a b = true ∨ le b a = true) (x : Row)
    (l : List Row) (h : l.Pairwise (fun a b => le a b = true)) :
    (insertLe le x l).Pairwise (fun a b => le a b = true) := by
  induction l with
  | nil => simp [insertLe]
  | cons y t ih =>
    simp only [insertLe]
    rcases List.pairwise_cons.mp h with ⟨hy, ht⟩
    by_cases hxy : le x y = true
    · rw [if_pos hxy]
      refine List.Pairwise.cons ?_ h
      intro z hz
      rcases List.mem_cons.mp hz with hz | hz
      · subst hz
        exact hxy
      · exact htrans x y z hxy (hy z hz)
    · rw [if_neg hxy]
      refine List.Pairwise.cons ?_ (ih ht)
      intro z hz
      have hz2 := (insertLe_perm le x t).mem_iff.mp hz
      rcases List.mem_cons.mp hz2 with hz2 | hz2
      · rw [hz2]
        rcases htot x y with hh | hh
        · exact absurd hh hxy
        · exact hh
      · exact hy z hz2

theorem pairwise_sortLe (le : Row → Row → Bool)
    (htrans : ∀ a b c, le a b = true → le b c = true → le a c = true)
    (htot : ∀ a b, le a b = true ∨ le b a = true) :
    ∀ l : List Row, (sortLe le l).Pairwise (fun a b => le a b = true)
  | [] => List.Pairwise.nil
  | x :: t => pairwise_insertLe le htrans htot x (sortLe le t) (pairwise_sortLe le htrans htot t)

theorem dedupByKey_subset {seen : List (String × String)} :
    ∀ {l : List Row} {r : Row}, r ∈ dedupByKey seen l → r ∈ l := by
  intro l
  induction l generalizing seen with
  | nil => intro r h; exact absurd h (List.not_mem_nil r)
  | cons a t ih =>
    intro r h
    simp only [dedupByKey] at h
    by_cases hm : rowKey a ∈ seen
    · rw [if_pos hm] at h
      exact List.mem_cons_of_mem a (ih h)
    · rw [if_neg hm] at h
      rcases List.mem_cons.mp h with h | h
      · exact h ▸ List.mem_cons_self a t
      · exact List.mem_cons_of_mem a (ih h)

theorem dedupByKey_key_not_seen {seen : List (String × String)} :
    ∀ {l : List Row} {r : Row}, r ∈ dedupByKey seen l → rowKey r ∉ seen := by
  intro l
  induction l generalizing seen with
  | nil => intro r h; exact absurd h (List.not_mem_nil r)
  | cons a t ih =>
    intro r h
    simp only [dedupByKey] at h
    by_cases hm : rowKey a ∈ seen
    · rw [if_pos hm] at h
      exact ih h
    · rw [if_neg hm] at h
      rcases List.mem_cons.mp h with h | h
      · subst h
        exact hm
      · intro hc
        exact ih h (List.mem_cons_of_mem _ hc)

theorem dedupByKey_covers {seen : List (String × String)} :
    ∀ {l : List Row} {x : Row}, x ∈ l →
      rowKey x ∈ seen ∨ ∃ r ∈ dedupByKey seen l, rowKey r = rowKey x := by
  intro l
  induction l generalizing seen with
  | nil => intro x h; exact absurd h (List.not_mem_nil x)
  | cons a t ih =>
    intro x h
    simp only [dedupByKey]
    by_cases hm : rowKey a ∈ seen
    · rw [if_pos hm]
      rcases List.mem_cons.mp h with h | h
      · subst h
        exact Or.inl hm
      · exact ih h
    · rw [if_neg hm]
      rcases List.mem_cons.mp h with h | h
      · subst h
        exact Or.inr ⟨x, List.mem_cons_self _ _, rfl⟩
      · rcases @ih (rowKey a :: seen) x h with hh | ⟨r, hr, hkr⟩
        · rcases List.mem_cons.mp hh with hh | hh
          · exact Or.inr ⟨a, List.mem_cons_self _ _, hh.symm⟩
          · exact Or.inl hh
        · exact Or.inr ⟨r, List.mem_cons_of_mem _ hr, hkr⟩

theorem dedupByKey_keys_nodup {seen : List (String × String)} :
    ∀ {l : List Row}, ((dedupByKey seen l).map rowKey).Nodup := by
  intro l
  induction l generalizing seen with
  | nil => exact List.nodup_nil
  | cons a t ih =>
    simp only [dedupByKey]
    by_cases hm : rowKey a ∈ seen
    · rw [if_pos hm]
      exact ih
    · rw [if_neg hm]
      rw [List.map_cons, List.nodup_cons]
      refine ⟨?_, ih⟩
      intro hc
      rcases List.mem_map.mp hc with ⟨r, hr, hkr⟩
      exact dedupByKey_key_not_seen hr (hkr ▸ List.mem_cons_self _ _)

theorem dedupByKey_first_max {seen : List (String × String)} :
    ∀ {l : List Row}, l.Pairwise (fun a b => rowLe a b = true) →
      ∀ {r : Row}, r ∈ dedupByKey seen l →
        ∀ {x : Row}, x ∈ l → rowKey x = rowKey r → rowLe r x = true ∨ x = r := by
  intro l
  induction l generalizing seen with
  | nil =>
    intro _ r hr
    exact absurd hr (List.not_mem_nil r)
  | cons a t ih =>
    intro hp r hr x hx hk
    rcases List.pairwise_cons.mp hp with ⟨ha, ht⟩
    simp only [dedupByKey] at hr
    by_cases hm : rowKey a ∈ seen
    · rw [if_pos hm] at hr
      rcases List.mem_cons.mp hx with hx | hx
      · subst hx
        exact absurd (hk ▸ hm) (dedupByKey_key_not_seen hr)
      · exact ih ht hr hx hk
    · rw [if_neg hm] at hr
      rcases List.mem_cons.mp hr with hr | hr
      · subst hr
        rcases List.mem_cons.mp hx with hx | hx
        · exact Or.inr hx
        · exact Or.inl (ha x hx)
      · have hkr : rowKey r ≠ rowKey a :=
          fun hc => dedupByKey_key_not_seen hr (hc ▸ List.mem_cons_self _ _)
        rcases List.mem_cons.mp hx with hx | hx
        · subst hx
          exact absurd hk.symm hkr
        · exact ih ht hr hx hk

/-! ## Unification invariant -/

/-- The duplicate keys of the records resolved against the roster
(matched records carry `some` standard hours, review-flagged ones
`none`). -/
def resolvedKeys (vs : List ValidatedRecord) : List String :=
  (vs.filter (fun v => v.standard_hours.isSome)).map (fun v => normKeyOf v.employee_name)

theorem resolvedKeys_append (l : List ValidatedRecord) (v : ValidatedRecord) :
    resolvedKeys (l ++ [v]) =
      resolvedKeys l ++
        (if v.standard_hours.isSome then [normKeyOf v.employee_name] else []) := by
  unfold resolvedKeys
  rw [List.filter_append, List.map_append]
  by_cases h : v.standard_hours.isSome
  · simp [h]
  · simp [Bool.eq_false_iff.mpr h, h]

theorem resolvedKeys_mergeIntoFirst (nk : String) (s : Summary) :
    ∀ vs : List ValidatedRecord, resolvedKeys (mergeIntoFirst vs nk s) = resolvedKeys vs
  | [] => rfl
  | v :: t => by
    simp only [mergeIntoFirst]
    by_cases h : normKeyOf v.employee_name = nk
    · rw [if_pos h]
      unfold resolvedKeys
      rw [List.filter_cons, List.filter_cons]
      by_cases hv : v.standard_hours.isSome = true
      · simp [hv]
      · simp [hv]
    · rw [if_neg h]
      unfold resolvedKeys
      rw [List.filter_cons, List.filter_cons]
      have ht := resolvedKeys_mergeIntoFirst nk s t
      unfold resolvedKeys at ht
      by_cases hv : v.standard_hours.isSome = true
      · simp only [hv, if_pos]
        rw [List.map_cons, List.map_cons, ht]
      · simp only [hv]
        simpa using ht

theorem unifyStep_inv (master : MasterDict) (st : List ValidatedRecord × List String)
    (result : RawRecord) (h1 : st.2 = resolvedKeys st.1) (h2 : st.2.Nodup) :
    (unifyStep master st result).2 = resolvedKeys (unifyStep master st result).1 ∧
      (unifyStep master st result).2.Nodup := by
  unfold unifyStep
  rcases truthyName result.employee_name with _ | name
  · exact ⟨h1, h2⟩
  · simp only
    rcases truthyName (matchCore defaultThreshold name (masterNames master)).1 with _ | matched
    · simp only
      refine ⟨?_, h2⟩
      rw [resolvedKeys_append]
      simp only [Option.isSome_none]
      rw [if_neg (by simp)]
      rw [List.append_nil]
      exact h1
    · simp only
      by_cases hseen : normKeyOf matched ∈ st.2
      · rw [if_pos hseen]
        simp only
        rw [resolvedKeys_mergeIntoFirst]
        exact ⟨h1, h2⟩
      · rw [if_neg hseen]
        simp only
        constructor
        · rw [resolvedKeys_append]
          simp [h1]
        · simp [List.nodup_append, h2, hseen]

theorem unify_inv (master : MasterDict) :
    ∀ (rs : List RawRecord) (st : List ValidatedRecord × List String),
      st.2 = resolvedKeys st.1 → st.2.Nodup →
      (rs.foldl (unifyStep master) st).2 = resolvedKeys (rs.foldl (unifyStep master) st).1 ∧
        (rs.foldl (unifyStep master) st).2.Nodup := by
  intro rs
  induction rs with
  | nil =>
    intro st h1 h2
    exact ⟨h1, h2⟩
  | cons result t ih =>
    intro st h1 h2
    rw [List.foldl_cons]
    obtain ⟨g1, g2⟩ := unifyStep_inv master st result h1 h2
    exact ih _ g1 g2

/-! ## Reference lemmas for the heap view of unification -/

theorem mergeIntoFirstH_frame (st : Store) (nk : String) (s : Summary) (i : Nat) :
    ∀ validated : List ValidatedRecordH, (∀ v ∈ validated, v.summaryRef ≠ i) →
      storeGet (mergeIntoFirstH st validated nk s) i = storeGet st i := by
  intro validated
  induction validated with
  | nil =>
    intro _
    rfl
  | cons v t ih =>
    intro hv
    simp only [mergeIntoFirstH]
    by_cases h : normKeyOf v.employee_name = nk
    · rw [if_pos h]
      show List.getD (List.set st v.summaryRef _) i [] = List.getD st i []
      rw [List.getD, List.getD]
      rw [List.get?_eq_getElem?, List.get?_eq_getElem?,
        List.getElem?_set_ne (hv v (List.mem_cons_self _ _))]
    · rw [if_neg h]
      exact ih (fun x hx => hv x (List.mem_cons_of_mem _ hx))

theorem unifyStepH_refs (master : MasterDict)
    (state : Store × List ValidatedRecordH × List String) (result : RecordRef) :
    (∀ v ∈ (unifyStepH master state result).2.1,
      v ∈ state.2.1 ∨ v.summaryRef = result.summaryRef) ∧
    (∀ i : Nat, (∀ v ∈ state.2.1, v.summaryRef ≠ i) → result.summaryRef ≠ i →
      storeGet (unifyStepH master state result).1 i = storeGet state.1 i) := by
  unfold unifyStepH
  rcases truthyName result.employee_name with _ | name
  · exact ⟨fun v hv => Or.inl hv, fun i _ _ => rfl⟩
  · simp only
    rcases truthyName (matchCore defaultThreshold name (masterNames master)).1 with _ | matched
    · simp only
      constructor
      · intro v hv
        rcases List.mem_append.1 hv with h | h
        · exact Or.inl h
        · right
          rw [List.mem_singleton.1 h]
      · intro i _ _
        trivial
    · simp only
      by_cases hseen : normKeyOf matched ∈ state.2.2
      · rw [if_pos hseen]
        simp only
        constructor
        · intro v hv
          exact Or.inl hv
        · intro i hv _
          exact mergeIntoFirstH_frame state.1 (normKeyOf matched) _ i state.2.1 hv
      · rw [if_neg hseen]
        simp only
        constructor
        · intro v hv
          rcases List.mem_append.1 hv with h | h
          · exact Or.inl h
          · right
            rw [List.mem_singleton.1 h]
        · intro i _ _
          trivial

theorem unifyH_fold (master : MasterDict) :
    ∀ (rs : List RecordRef) (state : Store × List ValidatedRecordH × List String),
      (∀ v ∈ (rs.foldl (unifyStepH master) state).2.1,
        v ∈ state.2.1 ∨ ∃ r ∈ rs, v.summaryRef = r.summaryRef) ∧
      (∀ i : Nat, (∀ v ∈ state.2.1, v.summaryRef ≠ i) → (∀ r ∈ rs, r.summaryRef ≠ i) →
        storeGet (rs.foldl (unifyStepH master) state).1 i = storeGet state.1 i) := by
  intro rs
  induction rs with
  | nil =>
    intro state
    exact ⟨fun v hv => Or.inl hv, fun i _ _ => rfl⟩
  | cons result t ih =>
    intro state
    rw [List.foldl_cons]
    obtain ⟨s1, s2⟩ := unifyStepH_refs master state result
    obtain ⟨f1, f2⟩ := ih (unifyStepH master state result)
    constructor
    · intro v hv
      rcases f1 v hv with h | ⟨r, hr, he⟩
      · rcases s1 v h with h' | h'
        · exact Or.inl h'
        · exact Or.inr ⟨result, List.mem_cons_self _ _, h'⟩
      · exact Or.inr ⟨r, List.mem_cons_of_mem _ hr, he⟩
    · intro i hval hrs
      have hval' : ∀ v ∈ (unifyStepH master state result).2.1, v.summaryRef ≠ i := by
        intro v hv
        rcases s1 v hv with h | h
        · exact hval v h
        · rw [h]
          exact hrs result (List.mem_cons_self _ _)
      rw [f2 i hval' (fun r hr => hrs r (List.mem_cons_of_mem _ hr))]
      exact s2 i hval (hrs result (List.mem_cons_self _ _))

/-! ## Small evaluation lemmas -/

theorem Frac.toRat_zero : (⟨0, 1⟩ : Frac).toRat = 0 := by
  show ((0 : Nat) : ℚ) / ((1 : Nat) : ℚ) = 0
  norm_num

theorem Frac.toRat_one : (⟨1, 1⟩ : Frac).toRat = 1 := by
  show ((1 : Nat) : ℚ) / ((1 : Nat) : ℚ) = 1
  norm_num

theorem rpBestScore_nonneg (refs : List String) (q : String) :
    0 ≤ rpBestScore refs q := by
  induction refs with
  | nil => exact le_refl 0
  | cons m t ih =>
    have : rpBestScore (m :: t) q
        = max (simScore (pyLower q) (pyLower (pyStrip m))) (rpBestScore t q) := rfl
    rw [this]
    exact le_trans ih (le_max_right _ _)

/-! ## Claims -/

/-- Claim C4: `validate_hours` returns `(true, "No validation")` when the
reported hours are null or the standard is ≤ 0; otherwise it is valid iff
`|reported - standard| / standard * 100 ≤ tolerance` (boundary inclusive);
`validate(176, 160, 10)` is `(true, "OK")` and `validate(200, 160, 10)` is
invalid with the irregular-hours message carrying `25.0`% to one decimal
place. -/
theorem claim_C4 (r standard tolerance : ℚ) :
    validateHours none standard tolerance = (true, "No validation") ∧
    (standard ≤ 0 → validateHours (some r) standard tolerance = (true, "No validation")) ∧
    (0 < standard →
      ((validateHours (some r) standard tolerance).1 = true ↔
        |r - standard| / standard * 100 ≤ tolerance)) ∧
    validateHours (some 176) 160 10 = (true, "OK") ∧
    validateHours (some 200) 160 10 = (false, "⚠️ Irregular Hours (25.0% deviation)") := by
  refine ⟨rfl, ?_, ?_, ?_, ?_⟩
  · intro h
    simp only [validateHours]
    rw [if_pos h]
  · intro h
    simp only [validateHours]
    rw [if_neg (not_le.mpr h), if_pos h]
    by_cases hle : |r - standard| / standard * 100 ≤ tolerance
    · rw [if_pos hle]
      simpa using hle
    · rw [if_neg hle]
      simpa using hle
  · norm_num [validateHours]
  · have h2 : fmt1 25 = "25.0" := by
      unfold fmt1
      have h3 : roundHalfEven ((25 : ℚ) * 10) = 250 := by
        unfold roundHalfEven
        norm_num
      rw [h3]
      rfl
    norm_num [validateHours, h2]
    rfl

/-- Witness for C4 at concrete inputs. -/
theorem claim_C4_witness :
    ((0 : ℚ) ≤ 0 ∧ validateHours (some 5) 0 10 = (true, "No validation")) ∧
    ((0 : ℚ) < 100 ∧
      ((validateHours (some 150) 100 10).1 = true ↔ |(150 : ℚ) - 100| / 100 * 100 ≤ 10)) :=
  ⟨⟨le_refl 0, (claim_C4 5 0 10).2.1 (le_refl 0)⟩,
   ⟨by norm_num, (claim_C4 150 100 10).2.2.1 (by norm_num)⟩⟩

/-- Claim C5: with a resolved positive standard, non-null reported
presence hours below the standard and positive vacation days, the
vacation pass applies `min(standard - reported, vacationDays * 8.6)`
hours, rounds the new presence and remaining vacation-day figures to two
decimals, and stores the original presence value under the audit field;
when any precondition is unmet the record passes through unchanged. -/
theorem claim_C5 (master : MasterDict) (r : RawRecord) (name : String)
    (standard reported vacationDays : ℚ) :
    (truthyName r.employee_name = some name →
      resolveStandard master name = some standard →
      sGet r.report_summary ("total_presence_hours") = some reported →
      sGet r.report_summary ("vacation_days") = some vacationDays →
      0 < standard → reported < standard → 0 < vacationDays →
      sGet (applyVacationStep master r).report_summary ("total_presence_hours")
          = some (round2 (reported + min (standard - reported) (vacationDays * HOURS_PER_VACATION_DAY))) ∧
      sGet (applyVacationStep master r).report_summary ("vacation_days")
          = some (round2 ((vacationDays * HOURS_PER_VACATION_DAY -
              min (standard - reported) (vacationDays * HOURS_PER_VACATION_DAY)) / HOURS_PER_VACATION_DAY)) ∧
      sGet (applyVacationStep master r).report_summary ("original_presence_hours")
          = some reported ∧
      sGet (applyVacationStep master r).report_summary ("auto_completed_hours")
          = some (round2 (min (standard - reported) (vacationDays * HOURS_PER_VACATION_DAY)))) ∧
    (truthyName r.employee_name = some name →
      (resolveStandard master name = none ∨
        (∃ s, resolveStandard master name = some s ∧ s ≤ 0) ∨
        sGet r.report_summary ("total_presence_hours") = none ∨
        sGet r.report_summary ("vacation_days") = none ∨
        (∃ rep s, sGet r.report_summary ("total_presence_hours") = some rep ∧
          resolveStandard master name = some s ∧ s ≤ rep) ∨
        (∃ v, sGet r.report_summary ("vacation_days") = some v ∧ v ≤ 0)) →
      applyVacationStep master r = r) := by
  have hday : (0 : ℚ) < HOURS_PER_VACATION_DAY := by
    unfold HOURS_PER_VACATION_DAY
    norm_num
  constructor
  · intro htn hstd hrep hvac hs hlt hv
    have hmin : 0 < min (standard - reported) (vacationDays * HOURS_PER_VACATION_DAY) :=
      lt_min (by linarith) (mul_pos hv hday)
    have hupd : vacationUpdate master name r.report_summary =
        some (sSet (sSet (sSet (sSet r.report_summary
          ("original_presence_hours") (some reported))
          ("auto_completed_hours")
            (some (round2 (min (standard - reported) (vacationDays * HOURS_PER_VACATION_DAY)))))
          ("total_presence_hours")
            (some (round2 (reported + min (standard - reported) (vacationDays * HOURS_PER_VACATION_DAY)))))
          ("vacation_days")
            (some (round2 ((vacationDays * HOURS_PER_VACATION_DAY -
              min (standard - reported) (vacationDays * HOURS_PER_VACATION_DAY)) / HOURS_PER_VACATION_DAY)))) := by
      unfold vacationUpdate
      rw [hstd]
      simp only [hrep, hvac]
      rw [if_neg (not_le.mpr hs)]
      rw [if_neg (by push_neg; exact ⟨hlt, hv⟩)]
      rw [if_neg (not_le.mpr hmin)]
    have happ : (applyVacationStep master r).report_summary =
        sSet (sSet (sSet (sSet r.report_summary
          ("original_presence_hours") (some reported))
          ("auto_completed_hours")
            (some (round2 (min (standard - reported) (vacationDays * HOURS_PER_VACATION_DAY)))))
          ("total_presence_hours")
            (some (round2 (reported + min (standard - reported) (vacationDays * HOURS_PER_VACATION_DAY)))))
          ("vacation_days")
            (some (round2 ((vacationDays * HOURS_PER_VACATION_DAY -
              min (standard - reported) (vacationDays * HOURS_PER_VACATION_DAY)) / HOURS_PER_VACATION_DAY))) := by
      unfold applyVacationStep
      rw [htn]
      simp only [hupd]
    rw [happ]
    refine ⟨?_, ?_, ?_, ?_⟩
    · rw [sGet_sSet_ne _ _ _ _ (by decide), sGet_sSet_same]
    · rw [sGet_sSet_same]
    · rw [sGet_sSet_ne _ _ _ _ (by decide), sGet_sSet_ne _ _ _ _ (by decide),
        sGet_sSet_ne _ _ _ _ (by decide), sGet_sSet_same]
    · rw [sGet_sSet_ne _ _ _ _ (by decide), sGet_sSet_ne _ _ _ _ (by decide), sGet_sSet_same]
  · intro htn hcases
    have hnone : vacationUpdate master name r.report_summary = none := by
      unfold vacationUpdate
      rcases hcases with h | ⟨s, hs, hs0⟩ | h | h | ⟨rep, s, hr, hs, hle⟩ | ⟨v, hv, hv0⟩
      · rw [h]
      · rw [hs]
        simp only
        rw [if_pos hs0]
      · rcases hres : resolveStandard master name with _ | s
        · rfl
        · simp only [h]
          by_cases hs0 : s ≤ 0
          · rw [if_pos hs0]
          · rw [if_neg hs0]
      · rcases hres : resolveStandard master name with _ | s
        · rfl
        · simp only [h]
          by_cases hs0 : s ≤ 0
          · rw [if_pos hs0]
          · rw [if_neg hs0]
            rcases sGet r.report_summary ("total_presence_hours") with _ | rep
            · rfl
            · rfl
      · rw [hs]
        simp only [hr]
        by_cases hs0 : s ≤ 0
        · rw [if_pos hs0]
        · rw [if_neg hs0]
          rcases hvv : sGet r.report_summary ("vacation_days") with _ | v
          · rfl
          · simp only
            rw [if_pos (Or.inl hle)]
      · rcases hres : resolveStandard master name with _ | s
        · rfl
        · simp only [hv]
          by_cases hs0 : s ≤ 0
          · rw [if_pos hs0]
          · rw [if_neg hs0]
            rcases hrr : sGet r.report_summary ("total_presence_hours") with _ | rep
            · rfl
            · simp only
              rw [if_pos (Or.inr hv0)]
    unfold applyVacationStep
    rw [htn]
    simp only [hnone]

/-- Witness for C5 at a concrete roster and record. -/
theorem claim_C5_witness :
    (truthyName (some "ab") = some "ab" ∧
      resolveStandard [("ab", ⟨"", 160⟩)] "ab" = some 160 ∧
      ((150 : ℚ) < 160 ∧ (0 : ℚ) < 2)) ∧
    sGet (applyVacationStep [("ab", ⟨"", 160⟩)]
        { employee_name := some "ab",
          report_summary := [("total_presence_hours", some 150), ("vacation_days", some 2)] }).report_summary
      ("original_presence_hours") = some 150 := by
  refine ⟨⟨rfl, by decide, by norm_num, by norm_num⟩, ?_⟩
  exact ((claim_C5 [("ab", ⟨"", 160⟩)]
    { employee_name := some "ab",
      report_summary := [("total_presence_hours", some 150), ("vacation_days", some 2)] }
    "ab" 160 150 2).1 rfl (by decide) (by decide) (by decide)
    (by norm_num) (by norm_num) (by norm_num)).2.2.1

/-- Counterexample for C6: `data_validator.fix_rtl_name` reverses a
Hebrew-containing name blindly — the margin comparison against a
reference list never happens (here it fails for the empty list), yet the
reversal is returned. -/
theorem claim_C6_counterexample :
    fixRtlName "אב" = "בא" ∧ ("בא" : String) ≠ "אב" ∧ ¬ marginCond "אב" [] := by
  refine ⟨by decide, by decide, ?_⟩
  intro h
  have h0 : rpBestScore [] (pyStrip "אב") = 0 := rfl
  have h1 : rpBestScore [] (pyStrip (revStr "אב")) = 0 := rfl
  have := h.2
  rw [h0, h1] at this
  linarith

/-- Claim C6 as amended: `report_parser._fix_rtl_name` is
comparison-driven exactly as claimed — it returns the stripped reversal
precisely when the name contains Hebrew and the reversal's best reference
similarity beats the original's by more than `0.1`, and the input
otherwise — while `data_validator.fix_rtl_name` blindly reverses any name
containing Hebrew characters. -/
theorem claim_C6_amended (name : String) (refs : List String) :
    (marginCond name refs → rpFixRtlName name refs = pyStrip (revStr name)) ∧
    (¬ marginCond name refs → rpFixRtlName name refs = name) ∧
    (containsHebrew name = true → fixRtlName name = revStr name) ∧
    (containsHebrew name = false → fixRtlName name = name) := by
  have hmain : (rpFixRtlName name refs = name ∧ ¬ marginCond name refs) ∨
      (rpFixRtlName name refs = pyStrip (revStr name) ∧ marginCond name refs) := by
    unfold rpFixRtlName
    by_cases h0 : name = ""
    · rw [if_pos h0]
      refine Or.inl ⟨rfl, ?_⟩
      intro hc
      rw [h0] at hc
      exact absurd hc.1 (by decide)
    · rw [if_neg h0]
      by_cases hheb : containsHebrew name = true
      · rw [if_neg (by simpa using hheb)]
        by_cases hrefs : refs = []
        · rw [if_pos hrefs]
          refine Or.inl ⟨rfl, ?_⟩
          intro hc
          rw [hrefs] at hc
          have := hc.2
          have h0a : rpBestScore [] (pyStrip name) = 0 := rfl
          have h1a : rpBestScore [] (pyStrip (revStr name)) = 0 := rfl
          rw [h0a, h1a] at this
          linarith
        · rw [if_neg hrefs]
          obtain ⟨⟨e1, d1⟩, e2, d2⟩ :=
            rpPairFold refs (pyStrip name) (pyStrip (revStr name)) (⟨0, 1⟩, ⟨0, 1⟩)
              Nat.one_pos Nat.one_pos
          have hz : (⟨0, 1⟩ : Frac).toRat = 0 := Frac.toRat_zero
          have hb1 : (rpBestPair refs (pyStrip name) (pyStrip (revStr name))).1.toRat
              = rpBestScore refs (pyStrip name) := by
            unfold rpBestPair
            rw [e1]
            show max (⟨0, 1⟩ : Frac).toRat _ = _
            rw [hz, max_eq_right (rpBestScore_nonneg _ _)]
          have hb2 : (rpBestPair refs (pyStrip name) (pyStrip (revStr name))).2.toRat
              = rpBestScore refs (pyStrip (revStr name)) := by
            unfold rpBestPair
            rw [e2]
            show max (⟨0, 1⟩ : Frac).toRat _ = _
            rw [hz, max_eq_right (rpBestScore_nonneg _ _)]
          have hd1 : 0 < (rpBestPair refs (pyStrip name) (pyStrip (revStr name))).1.den := d1
          have hd2 : 0 < (rpBestPair refs (pyStrip name) (pyStrip (revStr name))).2.den := d2
          have hiff : Frac.blt
              (Frac.addTenth (rpBestPair refs (pyStrip name) (pyStrip (revStr name))).1)
              (rpBestPair refs (pyStrip name) (pyStrip (revStr name))).2 = true ↔
              marginCond name refs := by
            rw [Frac.blt_iff (Frac.addTenth_den_pos hd1) hd2]
            rw [Frac.addTenth_toRat hd1]
            rw [hb1, hb2]
            unfold marginCond
            constructor
            · intro h
              exact ⟨hheb, h⟩
            · intro h
              exact h.2
          by_cases hm : Frac.blt
              (Frac.addTenth (rpBestPair refs (pyStrip name) (pyStrip (revStr name))).1)
              (rpBestPair refs (pyStrip name) (pyStrip (revStr name))).2 = true
          · rw [if_pos hm]
            exact Or.inr ⟨rfl, hiff.mp hm⟩
          · rw [if_neg hm]
            refine Or.inl ⟨rfl, ?_⟩
            intro hc
            exact hm (hiff.mpr hc)
      · rw [if_pos (by simpa using hheb)]
        refine Or.inl ⟨rfl, ?_⟩
        intro hc
        exact hheb hc.1
  refine ⟨?_, ?_, ?_, ?_⟩
  · intro hm
    rcases hmain with ⟨_, hn⟩ | ⟨h, _⟩
    · exact absurd hm hn
    · exact h
  · intro hn
    rcases hmain with ⟨h, _⟩ | ⟨_, hm⟩
    · exact h
    · exact absurd hm hn
  · intro hheb
    unfold fixRtlName
    rw [if_pos hheb]
  · intro hheb
    unfold fixRtlName
    rw [if_neg (by simp [hheb])]

/-- Witness for C6 at a concrete Hebrew name and empty reference list. -/
theorem claim_C6_witness :
    ¬ marginCond "אב" [] ∧ rpFixRtlName "אב" [] = "אב" ∧ fixRtlName "אב" = revStr "אב" := by
  have hnm : ¬ marginCond "אב" [] := by
    intro h
    have h0 : rpBestScore [] (pyStrip "אב") = 0 := rfl
    have h1 : rpBestScore [] (pyStrip (revStr "אב")) = 0 := rfl
    have := h.2
    rw [h0, h1] at this
    linarith
  exact ⟨hnm, (claim_C6_amended "אב" []).2.1 hnm, (claim_C6_amended "אב" []).2.2.1 (by decide)⟩

theorem matchCore_none_score (threshold : Frac) (name : String) (masters : List String)
    (hn : name ≠ "") (hm : masters ≠ [])
    (hnone : (matchCore threshold name masters).1 = none) :
    (matchCore threshold name masters).2.toRat
        = bestScoreFrom masters (normalizeName name) ∨
    (matchCore threshold name masters).2.toRat
        = max (bestScoreFrom masters (normalizeName name))
            (bestScoreFrom masters (fixRtlName (normalizeName name))) := by
  have hb1d : 0 < (fuzzyPass masters (normalizeName name) (none, ⟨0, 1⟩)).2.den :=
    fuzzyPass_den_pos _ _ _ Nat.one_pos
  have hb1v : (fuzzyPass masters (normalizeName name) (none, ⟨0, 1⟩)).2.toRat
      = bestScoreFrom masters (normalizeName name) := by
    rw [fuzzyPass_toRat _ _ _ Nat.one_pos]
    show max (⟨0, 1⟩ : Frac).toRat _ = _
    rw [Frac.toRat_zero, max_eq_right (bestScoreFrom_nonneg _ _)]
  simp only [matchCore, if_neg hn, if_neg hm] at hnone ⊢
  rcases hf : masters.find?
      (fun m => pyLower (normalizeName m) == pyLower (normalizeName name)) with _ | m
  · simp only [hf] at hnone ⊢
    by_cases hth : Frac.blt (fuzzyPass masters (normalizeName name) (none, ⟨0, 1⟩)).2 threshold = true
    · simp only [hth, if_pos] at hnone ⊢
      by_cases hrev : fixRtlName (normalizeName name) ≠ normalizeName name
      · simp only [if_pos hrev] at hnone ⊢
        have hrd := fuzzyPass_den_pos masters (fixRtlName (normalizeName name)) _ hb1d
        have hrv : (fuzzyPass masters (fixRtlName (normalizeName name))
            (fuzzyPass masters (normalizeName name) (none, ⟨0, 1⟩))).2.toRat
            = max (bestScoreFrom masters (normalizeName name))
                (bestScoreFrom masters (fixRtlName (normalizeName name))) := by
          rw [fuzzyPass_toRat _ _ _ hb1d, hb1v]
        rcases hres : (fuzzyPass masters (fixRtlName (normalizeName name))
            (fuzzyPass masters (normalizeName name) (none, ⟨0, 1⟩))).1 with _ | m
        · simp only [hres] at hnone ⊢
          exact Or.inr hrv
        · simp only [hres] at hnone ⊢
          by_cases hgate : (m != "" &&
              Frac.ble threshold (fuzzyPass masters (fixRtlName (normalizeName name))
                (fuzzyPass masters (normalizeName name) (none, ⟨0, 1⟩))).2) = true
          · simp only [hgate, if_pos] at hnone
            exact absurd hnone (by simp)
          · simp only [hgate] at hnone ⊢
            simp only [Bool.false_eq_true, if_false]
            exact Or.inr hrv
      · simp only [if_neg hrev] at hnone ⊢
        rcases hres : (fuzzyPass masters (normalizeName name) (none, ⟨0, 1⟩)).1 with _ | m
        · simp only [hres] at hnone ⊢
          exact Or.inl hb1v
        · simp only [hres] at hnone ⊢
          by_cases hgate : (m != "" &&
              Frac.ble threshold (fuzzyPass masters (normalizeName name) (none, ⟨0, 1⟩)).2) = true
          · simp only [hgate, if_pos] at hnone
            exact absurd hnone (by simp)
          · simp only [hgate] at hnone ⊢
            simp only [Bool.false_eq_true, if_false]
            exact Or.inl hb1v
    · simp only [hth] at hnone ⊢
      simp only [Bool.false_eq_true, if_false] at hnone ⊢
      rcases hres : (fuzzyPass masters (normalizeName name) (none, ⟨0, 1⟩)).1 with _ | m
      · simp only [hres] at hnone ⊢
        exact Or.inl hb1v
      · simp only [hres] at hnone ⊢
        by_cases hgate : (m != "" &&
            Frac.ble threshold (fuzzyPass masters (normalizeName name) (none, ⟨0, 1⟩)).2) = true
        · simp only [hgate, if_pos] at hnone
          exact absurd hnone (by simp)
        · simp only [hgate] at hnone ⊢
          simp only [Bool.false_eq_true, if_false]
          exact Or.inl hb1v
  · simp only [hf] at hnone
    exact absurd hnone (by simp)

/-- Claim C7: `match_employee_name` returns `(null, 0.0)` for an empty
raw name and for an empty roster, and when no strategy clears the
threshold it returns `(null, bestScoreSeen)` — the best similarity
observed over the same-orientation pass, or over both passes when the
reversed pass ran. -/
theorem claim_C7 (threshold : Frac) (name : String) (masters : List String) :
    (name = "" → matchEmployeeName threshold name masters = (none, 0)) ∧
    (masters = [] → matchEmployeeName threshold name masters = (none, 0)) ∧
    (name ≠ "" → masters ≠ [] →
      ∀ q : ℚ, matchEmployeeName threshold name masters = (none, q) →
        q = bestScoreFrom masters (normalizeName name) ∨
        q = max (bestScoreFrom masters (normalizeName name))
              (bestScoreFrom masters (fixRtlName (normalizeName name)))) := by
  refine ⟨?_, ?_, ?_⟩
  · intro h
    unfold matchEmployeeName
    simp only [matchCore, if_pos h]
    rw [Frac.toRat_zero]
  · intro h
    unfold matchEmployeeName
    by_cases hn : name = ""
    · simp only [matchCore, if_pos hn]
      rw [Frac.toRat_zero]
    · simp only [matchCore, if_neg hn, if_pos h]
      rw [Frac.toRat_zero]
  · intro hn hm q hq
    unfold matchEmployeeName at hq
    have h1 : (matchCore threshold name masters).1 = none := by
      have := congrArg Prod.fst hq
      simpa using this
    have h2 : (matchCore threshold name masters).2.toRat = q := by
      have := congrArg Prod.snd hq
      simpa using this
    rw [← h2]
    exact matchCore_none_score threshold name masters hn hm h1

/-- Witness for C7: a no-match evaluation at a concrete name/roster. -/
theorem claim_C7_witness :
    ("zz" : String) ≠ "" ∧ (["qq"] : List String) ≠ [] ∧
    ((0 : ℚ) = bestScoreFrom ["qq"] (normalizeName "zz") ∨
      (0 : ℚ) = max (bestScoreFrom ["qq"] (normalizeName "zz"))
        (bestScoreFrom ["qq"] (fixRtlName (normalizeName "zz")))) := by
  have hres : matchEmployeeName defaultThreshold "zz" ["qq"] = (none, 0) := by
    unfold matchEmployeeName
    have hc : matchCore defaultThreshold "zz" ["qq"] = (none, ⟨0, 1⟩) := by decide
    rw [hc]
    show ((none : Option String), (⟨0, 1⟩ : Frac).toRat) = (none, 0)
    rw [Frac.toRat_zero]
  exact ⟨by decide, by decide,
    (claim_C7 defaultThreshold "zz" ["qq"]).2.2 (by decide) (by decide) 0 hres⟩

/-- Counterexample for C8: the exact pass returns the *first* roster name
whose normalized lowercased form matches — for the roster
`["a-b", "a b"]` and the roster member `"a b"` it returns `"a-b"`,
not `("a b", 1.0)` as the claim states. -/
theorem claim_C8_counterexample :
    ("a b" : String) ∈ (["a-b", "a b"] : List String) ∧
    (matchEmployeeName defaultThreshold "a b" ["a-b", "a b"]).1 = some "a-b" ∧
    (some "a-b" : Option String) ≠ some "a b" := by
  refine ⟨by decide, ?_, by decide⟩
  show (matchCore defaultThreshold "a b" ["a-b", "a b"]).1 = some "a-b"
  decide

/-- Claim C8 as amended: for a roster whose normalized lowercased names
are pairwise distinct, matching a non-empty roster name returns that very
name with confidence 1.0, before any fuzzy comparison. -/
theorem claim_C8_amended (threshold : Frac) (name : String) (masters : List String)
    (hmem : name ∈ masters) (hne : name ≠ "")
    (hnodup : (masters.map (fun m => pyLower (normalizeName m))).Nodup) :
    matchEmployeeName threshold name masters = (some name, 1) := by
  have hmne : masters ≠ [] := List.ne_nil_of_mem hmem
  rcases hf : masters.find?
      (fun m => pyLower (normalizeName m) == pyLower (normalizeName name)) with _ | m
  · exfalso
    have := List.find?_eq_none.mp hf name hmem
    simp at this
  · have hpm := List.find?_some hf
    have hmmem : m ∈ masters := List.mem_of_find?_eq_some hf
    have hmeq : m = name := by
      apply List.inj_on_of_nodup_map hnodup hmmem hmem
      simpa using hpm
    unfold matchEmployeeName
    simp only [matchCore, if_neg hne, if_neg hmne, hf]
    rw [hmeq]
    show ((some name : Option String), (⟨1, 1⟩ : Frac).toRat) = (some name, 1)
    rw [Frac.toRat_one]

/-- Witness for C8 at a concrete roster. -/
theorem claim_C8_witness :
    ("ab" : String) ∈ (["ab", "cd"] : List String) ∧
    matchEmployeeName defaultThreshold "ab" ["ab", "cd"] = (some "ab", 1) :=
  ⟨by decide, claim_C8_amended defaultThreshold "ab" ["ab", "cd"] (by decide) (by decide) (by decide)⟩

/-- Roster for the C1 counterexample. -/
def c1Master : MasterDict := [("ab", ⟨"Acme", 160⟩)]

/-- Two reports for the same employee in two different periods. -/
def c1RecA : RawRecord :=
  { employee_name := some "ab", report_period := some "January 2025",
    report_summary := [("total_presence_hours", some 150)] }

/-- See `c1RecA`. -/
def c1RecB : RawRecord :=
  { employee_name := some "ab", report_period := some "February 2025",
    report_summary := [("total_presence_hours", some 160)] }

/-- Counterexample for C1: two resolved records with the same normalized
canonical name but *different* report periods are merged into a single
output record — `validate_and_unify_data` keys duplicates by normalized
name only and ignores the period. -/
theorem claim_C1_counterexample :
    c1RecA.report_period ≠ c1RecB.report_period ∧
    (matchEmployeeName defaultThreshold "ab" (masterNames c1Master)).1 = some "ab" ∧
    (validateAndUnifyData c1Master [c1RecA, c1RecB]).length = 1 := by
  refine ⟨by decide, ?_, by decide⟩
  show (matchCore defaultThreshold "ab" (masterNames c1Master)).1 = some "ab"
  decide

/-- Claim C1 as amended: unification groups resolved records by
normalized canonical name alone — the batch never contains two resolved
output records with the same normalized name, irrespective of report
period (same-period duplicates merge, and different-period records for
the same employee merge as well). -/
theorem claim_C1_amended (master : MasterDict) (rs : List RawRecord) :
    (((validateAndUnifyData master rs).filter (fun v => v.standard_hours.isSome)).map
      (fun v => normKeyOf v.employee_name)).Nodup := by
  have h := unify_inv master rs ([], []) rfl List.nodup_nil
  unfold validateAndUnifyData
  show (resolvedKeys ((rs.foldl (unifyStep master) ([], [])).1)).Nodup
  rw [← h.1]
  exact h.2

/-- Roster for the C2 theorems. -/
def c2Master : MasterDict := [("Israel Cohen", ⟨"Acme", 160⟩)]

/-- The record with the higher completeness score but the smaller
presence-hours value. -/
def c2RecHigh : RawRecord :=
  { employee_name := some "Israel Cohen", employee_id := some "123",
    report_summary := [("total_presence_hours", some 100), ("overtime_hours", some 1),
      ("vacation_days", some 1)] }

/-- The record with the lower completeness score but the larger
presence-hours value. -/
def c2RecLow : RawRecord :=
  { employee_name := some "Israel Cohen",
    report_summary := [("total_presence_hours", some 200)] }

/-- Modelled from the spec (4.5a), for comparison with the code's merge:
the completeness score is `hasId (0/1)` plus the count of non-null values
among the six well-known hour-metric fields. -/
def specCompletenessScore (r : RawRecord) : Nat :=
  (match r.employee_id with
    | none => 0
    | some s => if s = "" then 0 else 1) +
    ((["total_presence_hours", "total_approved_hours", "total_payable_hours",
       "overtime_hours", "vacation_days", "sick_days"].filter
        (fun c => (sGet r.report_summary c).isSome)).length)

/-- Counterexample for C2: merged duplicates do *not* take each metric
from the record with the higher completeness score — the numerically
larger value always wins, so the lower-completeness record's 200 replaces
the higher-completeness record's 100. -/
theorem claim_C2_counterexample :
    specCompletenessScore c2RecLow < specCompletenessScore c2RecHigh ∧
    sGet c2RecHigh.report_summary ("total_presence_hours") = some 100 ∧
    (validateAndUnifyData c2Master [c2RecHigh, c2RecLow]).map
        (fun v => sGet v.report_summary ("total_presence_hours")) = [some 200] := by
  decide

/-- The spec scenario's record A (`{has_id:false, total_presence_hours:150}`). -/
def c2ScenA : RawRecord :=
  { employee_name := some "Israel Cohen",
    report_summary := [("total_presence_hours", some 150)] }

/-- The spec scenario's record B
(`{has_id:true, total_presence_hours:null, overtime_hours:5}`). -/
def c2ScenB : RawRecord :=
  { employee_name := some "Israel Cohen", employee_id := some "123",
    report_summary := [("total_presence_hours", none), ("overtime_hours", some 5)] }

/-- Claim C2 as amended: the duplicate merge is per-metric and ignores
completeness — a key's merged value is the numerically larger of the two
non-null values, an incoming non-null value fills a null, and a null
incoming value never overwrites; the spec's concrete scenario still
produces `{total_presence_hours:150, overtime_hours:5}`. -/
theorem claim_C2_amended :
    (∀ (old new : Summary) (k : String), (new.map Prod.fst).Nodup →
      sGet (mergeSummaries old new) k =
        match sGet new k, sGet old k with
        | none, o => o
        | some nv, none => some nv
        | some nv, some ov => some (max ov nv)) ∧
    (validateAndUnifyData c2Master [c2ScenA, c2ScenB]).map
        (fun v => (sGet v.report_summary ("total_presence_hours"),
          sGet v.report_summary ("overtime_hours"))) = [(some 150, some 5)] := by
  exact ⟨fun old new k h => sGet_mergeSummaries old new k h, by decide⟩

/-- Witness for C2's merge characterization at concrete summaries. -/
theorem claim_C2_witness :
    (([("a", some (1 : ℚ))] : Summary).map Prod.fst).Nodup ∧
    sGet (mergeSummaries [("a", some 2)] [("a", some 1)]) "a" = some 2 := by
  refine ⟨by decide, ?_⟩
  rw [claim_C2_amended.1 [("a", some 2)] [("a", some 1)] "a" (by decide)]
  have h1 : sGet [("a", some (1 : ℚ))] "a" = some 1 := by decide
  have h2 : sGet [("a", some (2 : ℚ))] "a" = some 2 := by decide
  rw [h1, h2]
  show some (max (2 : ℚ) 1) = some 2
  rw [max_eq_left (by norm_num)]

/-- The already-flagged record for C3. -/
def c3Rec : RawRecord := { employee_name := some "**CHECK: X" }

/-- Claim C3 (code bug): `validate_and_unify_data` does not detect the
`**CHECK: ` prefix — with an empty roster the already-flagged name is
re-matched, fails, and is re-flagged to `**CHECK: **CHECK: X`; the
sibling call site `get_best_name_match` does carry the prefix guard and
returns the flagged name untouched. -/
theorem claim_C3_bug :
    (validateAndUnifyData [] [c3Rec]).map (fun v => v.employee_name)
        = ["**CHECK: **CHECK: X"] ∧
    getBestNameMatch "**CHECK: X" ["whoever"] = "**CHECK: X" := by
  decide

/-- Roster for the C9 theorems. -/
def c9Master : MasterDict := [("ab", ⟨"", 160⟩)]

/-- A record whose report summary lives at store reference 0. -/
def c9Rec : RecordRef := { employee_name := some "ab", summaryRef := 0 }

/-- The store holding the record's summary dict. -/
def c9Store : Store := [[("total_presence_hours", some 150), ("vacation_days", some 2)]]

/-- Two records reporting the same employee, each holding a reference to
its own summary dict. -/
def c9uRecA : RecordRef := { employee_name := some "ab", summaryRef := 0 }

/-- The duplicate record behind the second summary reference. -/
def c9uRecB : RecordRef := { employee_name := some "ab", summaryRef := 1 }

/-- The store holding both duplicate records' summary dicts. -/
def c9uStore : Store :=
  [[("total_presence_hours", some 150)], [("overtime_hours", some 5)]]

/-- Counterexample for C9.  Vacation pass: it returns the very record
list it was given (no copies), and the summary reachable through the
input record's unchanged reference now holds 160 presence hours instead
of the original 150 — the input RawRecord was mutated in place, not
copied.  Unification: merging duplicate B writes into the seed row's
summary dict, which the shallow `result.copy()` shares with input record
A — afterwards A's own dict, read through A's unchanged reference, holds
B's overtime metric, and the single output row still carries A's summary
reference. -/
theorem claim_C9_counterexample :
    (applyVacationCompletionH c9Master c9Store [c9Rec]).2 = [c9Rec] ∧
    sGet (storeGet c9Store c9Rec.summaryRef) ("total_presence_hours") = some 150 ∧
    sGet (storeGet (applyVacationCompletionH c9Master c9Store [c9Rec]).1 c9Rec.summaryRef)
        ("total_presence_hours") = some 160 ∧
    storeGet c9uStore c9uRecA.summaryRef = [("total_presence_hours", some 150)] ∧
    storeGet (validateAndUnifyDataH c9Master c9uStore [c9uRecA, c9uRecB]).1 c9uRecA.summaryRef
        = [("total_presence_hours", some 150), ("overtime_hours", some 5)] ∧
    (validateAndUnifyDataH c9Master c9uStore [c9uRecA, c9uRecB]).2.map
        (fun v => v.summaryRef) = [c9uRecA.summaryRef] := by
  have hv : vacationUpdate c9Master "ab"
      [("total_presence_hours", some 150), ("vacation_days", some 2)] =
      some [("total_presence_hours", some 160), ("vacation_days", some (21/25)),
        ("original_presence_hours", some 150), ("auto_completed_hours", some 10)] := by
    have h1 : resolveStandard c9Master "ab" = some 160 := by decide
    have h2 : sGet [("total_presence_hours", some (150 : ℚ)), ("vacation_days", some 2)]
        ("total_presence_hours") = some 150 := by decide
    have h3 : sGet [("total_presence_hours", some (150 : ℚ)), ("vacation_days", some 2)]
        ("vacation_days") = some 2 := by decide
    have hr1 : round2 10 = 10 := by
      unfold round2 roundHalfEven
      norm_num
    have hr2 : round2 160 = 160 := by
      unfold round2 roundHalfEven
      norm_num
    have hr3 : round2 ((36 : ℚ)/43) = 21/25 := by
      unfold round2 roundHalfEven
      norm_num
    have hmin : (10 : ℚ) ⊓ (2 * HOURS_PER_VACATION_DAY) = 10 := by
      unfold HOURS_PER_VACATION_DAY
      rw [min_def]
      norm_num
    unfold vacationUpdate
    rw [h1, h2, h3]
    norm_num [hmin]
    rw [hr2, hr1]
    rw [show ((2 * HOURS_PER_VACATION_DAY - 10) / HOURS_PER_VACATION_DAY : ℚ) = 36/43 by
      unfold HOURS_PER_VACATION_DAY; norm_num, hr3]
    simp [sSet]
  have hfold : (applyVacationCompletionH c9Master c9Store [c9Rec]).1 =
      storeSet c9Store 0 [("total_presence_hours", some 160), ("vacation_days", some (21/25)),
        ("original_presence_hours", some 150), ("auto_completed_hours", some 10)] := by
    show List.foldl (vacationHeapStep c9Master) c9Store [c9Rec] = _
    rw [List.foldl_cons, List.foldl_nil]
    show vacationHeapStep c9Master c9Store c9Rec = _
    unfold vacationHeapStep
    have htn : truthyName c9Rec.employee_name = some "ab" := by decide
    have hsg : storeGet c9Store c9Rec.summaryRef
        = [("total_presence_hours", some 150), ("vacation_days", some 2)] := by decide
    simp only [htn, hsg, hv]
    rfl
  refine ⟨rfl, by decide, ?_, by decide, by decide, by decide⟩
  rw [hfold]
  have : storeGet (storeSet c9Store 0 [("total_presence_hours", some 160),
      ("vacation_days", some (21/25)), ("original_presence_hours", some 150),
      ("auto_completed_hours", some 10)]) c9Rec.summaryRef
      = [("total_presence_hours", some 160), ("vacation_days", some (21/25)),
        ("original_presence_hours", some 150), ("auto_completed_hours", some 10)] := by
    show List.getD _ 0 [] = _
    rfl
  rw [this]
  show (some (160 : ℚ)) = some 160
  rfl

theorem vacationFold_frame (master : MasterDict) (i : Nat) :
    ∀ (rs : List RecordRef) (st : Store), (∀ rec ∈ rs, rec.summaryRef ≠ i) →
      storeGet (List.foldl (vacationHeapStep master) st rs) i = storeGet st i := by
  intro rs
  induction rs with
  | nil =>
    intro st _
    rfl
  | cons rec t ih =>
    intro st hi
    rw [List.foldl_cons]
    rw [ih _ (fun x hx => hi x (List.mem_cons_of_mem _ hx))]
    unfold vacationHeapStep
    rcases truthyName rec.employee_name with _ | name
    · rfl
    · simp only
      rcases vacationUpdate master name (storeGet st rec.summaryRef) with _ | s
      · rfl
      · simp only
        show List.getD (List.set st rec.summaryRef s) i [] = List.getD st i []
        rw [List.getD, List.getD]
        rw [List.get?_eq_getElem?, List.get?_eq_getElem?,
          List.getElem?_set_ne (hi rec (List.mem_cons_self _ _))]

/-- Claim C9 as amended: the core mutates input records in place.
`apply_vacation_completion` returns exactly the record list it was given
(the records, and hence their summary references, are untouched), and
only store entries referenced by some input record's summary can change.
Unification's shallow `result.copy()` keeps every output row's summary
reference equal to some input record's reference, and its duplicate
merge writes only through such shared references: store entries
referenced by no input record survive the pass untouched. -/
theorem claim_C9_amended (master : MasterDict) (st : Store) (rs : List RecordRef) :
    (applyVacationCompletionH master st rs).2 = rs ∧
    (∀ i : Nat, (∀ rec ∈ rs, rec.summaryRef ≠ i) →
      storeGet (applyVacationCompletionH master st rs).1 i = storeGet st i) ∧
    (∀ v ∈ (validateAndUnifyDataH master st rs).2, ∃ r ∈ rs, v.summaryRef = r.summaryRef) ∧
    (∀ i : Nat, (∀ rec ∈ rs, rec.summaryRef ≠ i) →
      storeGet (validateAndUnifyDataH master st rs).1 i = storeGet st i) := by
  refine ⟨rfl, ?_, ?_, ?_⟩
  · intro i hi
    exact vacationFold_frame master i rs st hi
  · intro v hv
    rcases (unifyH_fold master rs (st, [], [])).1 v hv with h | h
    · exact absurd h (List.not_mem_nil v)
    · exact h
  · intro i hi
    exact (unifyH_fold master rs (st, [], [])).2 i
      (fun v hv => absurd hv (List.not_mem_nil v)) hi

/-- Witness for C9's frame properties at a concrete store. -/
theorem claim_C9_witness :
    (∀ rec ∈ [c9Rec], rec.summaryRef ≠ 1) ∧
    storeGet (applyVacationCompletionH c9Master c9Store [c9Rec]).1 1 = storeGet c9Store 1 ∧
    storeGet (validateAndUnifyDataH c9Master c9Store [c9Rec]).1 1 = storeGet c9Store 1 := by
  have h : ∀ rec ∈ [c9Rec], rec.summaryRef ≠ 1 := by decide
  exact ⟨h, (claim_C9_amended c9Master c9Store [c9Rec]).2.1 1 h,
    (claim_C9_amended c9Master c9Store [c9Rec]).2.2.2 1 h⟩

theorem mkRow_has_id (masters : List String) (a : RawRecord) :
    (mkRow masters a).has_id =
      if (mkRow masters a).norm_id ≠ "NO_ID" then 1 else 0 := rfl

theorem has_id_eq_of_key_eq {masters : List String} {rs : List RawRecord} {x r : Row}
    (hx : x ∈ rs.map (mkRow masters)) (hr : r ∈ rs.map (mkRow masters))
    (hk : rowKey x = rowKey r) : x.has_id = r.has_id := by
  rcases List.mem_map.mp hx with ⟨a, _, ha⟩
  rcases List.mem_map.mp hr with ⟨b, _, hb⟩
  have hid : x.norm_id = r.norm_id := congrArg Prod.snd hk
  rw [← ha, ← hb] at hid ⊢
  rw [mkRow_has_id, mkRow_has_id, hid]

/-- Claim C10: `deduplicate_results` keys on the pair
`(norm_name, norm_id)` — every input row's key survives into the output
(so rows with the same name but different non-empty ids are never
collapsed), output keys are pairwise distinct (rows agreeing on both
components collapse to a single row), every output row is an input row,
and the surviving row of each key group has maximal completeness
(`has_id + hour_count`) within its group. -/
theorem claim_C10 (masters : List String) (rs : List RawRecord) :
    (∀ x ∈ rs.map (mkRow masters), ∃ r ∈ dedupRows masters rs, rowKey r = rowKey x) ∧
    ((dedupRows masters rs).map rowKey).Nodup ∧
    (∀ r ∈ dedupRows masters rs, r ∈ rs.map (mkRow masters)) ∧
    (∀ r ∈ dedupRows masters rs, ∀ x ∈ rs.map (mkRow masters),
      rowKey x = rowKey r → rowCompleteness x ≤ rowCompleteness r) := by
  have hperm : (sortLe rowLe (rs.map (mkRow masters))).Perm (rs.map (mkRow masters)) :=
    sortLe_perm rowLe _
  have hpair : (sortLe rowLe (rs.map (mkRow masters))).Pairwise (fun a b => rowLe a b = true) :=
    pairwise_sortLe rowLe (fun a b c => rowLe_trans) rowLe_total _
  refine ⟨?_, dedupByKey_keys_nodup, ?_, ?_⟩
  · intro x hx
    have hx' : x ∈ sortLe rowLe (rs.map (mkRow masters)) := hperm.mem_iff.mpr hx
    rcases @dedupByKey_covers [] _ _ hx' with h | ⟨r, hr, hk⟩
    · exact absurd h (List.not_mem_nil _)
    · exact ⟨r, hr, hk⟩
  · intro r hr
    exact hperm.mem_iff.mp (dedupByKey_subset hr)
  · intro r hr x hx hk
    have hx' : x ∈ sortLe rowLe (rs.map (mkRow masters)) := hperm.mem_iff.mpr hx
    have hrmem : r ∈ rs.map (mkRow masters) := hperm.mem_iff.mp (dedupByKey_subset hr)
    have hid : x.has_id = r.has_id := has_id_eq_of_key_eq hx hrmem hk
    rcases dedupByKey_first_max hpair hr hx' hk with hle | heq
    · have := (rowLe_iff r x).mp hle
      rcases this with hlt | ⟨_, hin⟩
      · exfalso
        have hnm : r.norm_name = x.norm_name := (congrArg Prod.fst hk).symm
        rw [strLtB_irrefl_of_eq hnm] at hlt
        exact absurd hlt (by simp)
      · unfold rowCompleteness
        rcases hin with hidlt | ⟨_, hhc⟩
        · omega
        · omega
    · rw [heq]

/-- First record for the C10 witness (carries id "1"). -/
def c10RecA : RawRecord :=
  { employee_name := some "a", employee_id := some "1",
    report_summary := [("total_presence_hours", some 1)] }

/-- Second record for the C10 witness (same name, id "2"). -/
def c10RecB : RawRecord :=
  { employee_name := some "a", employee_id := some "2" }

/-- Witness for C10: with two same-name records carrying different
non-empty ids, the first record's key survives deduplication. -/
theorem claim_C10_witness :
    (mkRow [] c10RecA) ∈ ([c10RecA, c10RecB].map (mkRow [])) ∧
    ∃ r ∈ dedupRows [] [c10RecA, c10RecB], rowKey r = rowKey (mkRow [] c10RecA) :=
  ⟨by decide, (claim_C10 [] [c10RecA, c10RecB]).1 (mkRow [] c10RecA) (by decide)⟩

end TimeAnalyzer
